import Mathlib

/-!
Verification of the Keccak-256 halo2 binding layer.

This file gives a shallow embedding of the repository's two source files:

* `src/util/mod.rs` — the bit-part splitter (`WordParts::new`,
  `target_part_sizes`, `get_rotate_count`) and the sparse word codec
  (`pack`, `pack_with_base`, `unpack`);
* `src/circuit.rs` — the instance packing codec (`pack_input_to_instance`,
  `unpack_input`), the binding layer's self checks
  (`verify_output_witnesses`, `verify_input_witnesses`), the public input
  binding walk (`constraint_public_inputs`), the witness cell readers
  (`extract_value`, `extract_u128`), and the instance component of
  `generate_halo2_proof`.

The proof system's scalar field (halo2curves `bn256::Fr`) is embedded as
`ZMod P` for the BN254 scalar modulus `P`.  Machine integers (`u64`,
`u128`, `u8`) are embedded as `Nat`; Rust panics / failed assertions are
embedded as `Option`/`Bool` results.
-/

/-- The order of the BN254 (bn256) scalar field `Fr`. -/
def P : Nat := 21888242871839275222246405745257275088548364400416034343698204186575808495617

instance : NeZero P := ⟨by decide⟩

instance : Fact (1 < P) := ⟨by norm_num [P]⟩

/-- The proof system's scalar field, `halo2curves::bn256::Fr`. -/
abbrev Fr : Type := ZMod P

/-! ### Constants from `src/util/mod.rs` -/

def NUM_BITS_PER_BYTE : Nat := 8

def NUM_BYTES_PER_WORD : Nat := 8

def NUM_BITS_PER_WORD : Nat := NUM_BYTES_PER_WORD * NUM_BITS_PER_BYTE

/-- The number of bits used in the sparse word representation per bit. -/
def BIT_COUNT : Nat := 3

/-- The base of the bit in the sparse word representation. -/
def BIT_SIZE : Nat := 2 ^ BIT_COUNT

/-- Modelled from the spec: `NUM_ROUNDS` comes from the (external)
`vanilla::param` module, which is not part of the two embedded source
files.  The spec fixes the permutation to Keccak-f[1600], which has 24
rounds, and the code iterates in groups of `NUM_ROUNDS + 1 = 25` rounds
per absorbed block. -/
def NUM_ROUNDS : Nat := 24

/-- Modelled from the spec: `NUM_WORDS_TO_ABSORB` comes from the
(external) `vanilla::param` module.  The spec fixes the rate to 1088 bits
= 136 bytes = 17 words of 64 bits absorbed per block. -/
def NUM_WORDS_TO_ABSORB : Nat := 17

/-! ### Little/big endian byte values

`u64::from_le_bytes`, `u128::from_le_bytes` and `u128::from_be_bytes`
interpret a byte slice as an unsigned integer.  On byte lists of the
lengths used by the code the `Nat` value is exactly the machine value. -/

/-- Value of a little-endian byte list (`uNN::from_le_bytes`). -/
def fromLeBytes (bytes : List Nat) : Nat :=
  bytes.foldr (fun b acc => b + 256 * acc) 0

/-- Value of a big-endian byte list (`u128::from_be_bytes`). -/
def fromBeBytes (bytes : List Nat) : Nat :=
  bytes.foldl (fun acc b => acc * 256 + b) 0

/-! ### Sparse word codec (`src/util/mod.rs`) -/

/-- `pack_with_base`: pack bits into a sparse word with the given base:
`bits.iter().rev().fold(F::ZERO, |acc, &bit| acc * base + F::from(bit))`. -/
def pack_with_base (bits : List Nat) (base : Nat) : Fr :=
  (bits.reverse).foldl (fun (acc : Fr) (bit : Nat) => acc * (base : Fr) + (bit : Fr)) 0

/-- `pack`: pack bits in the range `[0, BIT_SIZE)` into a sparse keccak word. -/
def pack (bits : List Nat) : Fr :=
  pack_with_base bits BIT_SIZE

/-- `unpack`: unpack a sparse keccak word into bits.  The field element's
canonical little-endian representation is read as an unsigned integer
(`Word::from_little_endian(packed.to_repr().as_ref())`, i.e. `val`) and
each base-`BIT_SIZE` digit is extracted with a shift and a mask. -/
def unpack (packed : Fr) : List Nat :=
  (List.range NUM_BITS_PER_WORD).map
    (fun idx => (packed.val >>> (idx * BIT_COUNT)) &&& (BIT_SIZE - 1))

/-- Horner value of a digit list, least significant digit first.  This is
the `Nat` shadow of `pack_with_base`. -/
def natPackBase (base : Nat) (bits : List Nat) : Nat :=
  bits.foldr (fun b acc => b + base * acc) 0

/-! ### Chunking (`slice::chunks`)

`chunksOf n l` splits `l` into consecutive groups of `n` elements, the
last group possibly shorter, like Rust's `slice::chunks(n)` (which panics
for `n = 0`; we return `[]` there).  The definition is structural in the
list (via a remaining-capacity counter) so that it evaluates by `decide`;
`chunksOf_cons_eq` recovers the usual take/drop characterization. -/

def chunksGo (n : Nat) : List α → List α → Nat → List (List α)
  | [], acc, _ => [acc.reverse]
  | x :: xs, acc, 0 => acc.reverse :: chunksGo n xs [x] (n - 1)
  | x :: xs, acc, k + 1 => chunksGo n xs (x :: acc) k

def chunksOf (n : Nat) (l : List α) : List (List α) :=
  match n, l with
  | _, [] => []
  | 0, _ :: _ => []
  | n + 1, x :: xs => chunksGo (n + 1) xs [x] n

/-! ### Instance packing codec (`src/circuit.rs`) -/

/-- `pack_input_to_instance`: packs each input byte array into field
elements, `NUM_BYTES_PER_WORD` bytes per element; each chunk is copied
into a zero-initialized 8-byte buffer, read as a little-endian `u64` and
converted to a field element.  Chunks of all inputs are concatenated in
input order. -/
def pack_input_to_instance (input : List (List Nat)) : List Fr :=
  input.flatMap (fun input_vec =>
    (chunksOf NUM_BYTES_PER_WORD input_vec).map (fun chunk =>
      ((fromLeBytes (chunk ++ List.replicate (NUM_BYTES_PER_WORD - chunk.length) 0) : Nat) : Fr)))

/-- `unpack_input`: converts field elements to bytes, reading only the
lowest-order byte (`x.to_bytes_le()[0]`) of each element. -/
def unpack_input (instance_ : List Fr) : List Nat :=
  instance_.map (fun x => x.val % 256)

/-- The instance component of `generate_halo2_proof`: looks up `"in"`,
unpacks it to raw bytes, re-packs those bytes into the public-input
vector.  The proof bytes produced by the external `create_proof` call are
outside the embedded core and are not modelled. -/
def generate_halo2_proof (inputs : List (String × List Fr)) :
    Except String (List Fr) :=
  match inputs.lookup "in" with
  | none => Except.error "`in` value not found in proof input"
  | some raw_inputs => Except.ok (pack_input_to_instance [unpack_input raw_inputs])

/-! ### Witness cell readers (`src/circuit.rs`) -/

/-- `extract_value`: reads a trivially assigned cell value.  (The Rust
function panics on non-`Trivial` `Assigned` variants; witness cells in
this embedding are plain field values, i.e. always `Trivial`.) -/
def extract_value (assigned_value : Fr) : Fr := assigned_value

/-- `Fr::to_bytes_le`: the canonical 32-byte little-endian representation
of a field element. -/
def to_bytes_le (x : Fr) : List Nat :=
  (List.range 32).map (fun i => x.val / 256 ^ i % 256)

/-- `extract_u128`: splits the canonical little-endian bytes of a cell
value at the 16-byte boundary, asserts the high half is zero
(`assert_eq!(hi, 0)`; `none` models the panic) and returns the low half as
a `u128`. -/
def extract_u128 (assigned_value : Fr) : Option Nat :=
  let le_bytes := to_bytes_le (extract_value assigned_value)
  let hi := fromLeBytes (le_bytes.drop 16)
  if hi = 0 then some (fromLeBytes (le_bytes.take 16)) else none

/-- `target_part_sizes`: the sizes of the parts when splitting a keccak
word into uniform chunks of `part_size` bits, with one shorter remainder
chunk if 64 is not a multiple of `part_size`. -/
def target_part_sizes (part_size : Nat) : List Nat :=
  let num_full_chunks := NUM_BITS_PER_WORD / part_size
  let partial_chunk_size := NUM_BITS_PER_WORD % part_size
  List.replicate num_full_chunks part_size
    ++ (if partial_chunk_size > 0 then [partial_chunk_size] else [])

/-- `get_rotate_count`: the rotation count in parts,
`(count + part_size - 1) / part_size`. -/
def get_rotate_count (count part_size : Nat) : Nat :=
  (count + part_size - 1) / part_size

/-- Rust `Vec::rotate_right(n)`: the last `n` elements move to the front. -/
def rotateRightVec (l : List α) (n : Nat) : List α :=
  l.drop (l.length - n) ++ l.take (l.length - n)

/-- Rust `Vec::rotate_left(n)`: the first `n` elements move to the back. -/
def rotateLeftVec (l : List α) (n : Nat) : List α :=
  l.drop n ++ l.take n

/-- The target sizes used by `WordParts::new` when `normalize` is false:
two independent uniform-chunk runs split at the rotation boundary, each
with its own remainder chunk. -/
def non_normalized_part_sizes (part_size rot : Nat) : List Nat :=
  let num_parts_a := rot / part_size
  let pa := rot % part_size
  let num_parts_b := (NUM_BITS_PER_WORD - rot) / part_size
  let pb := (NUM_BITS_PER_WORD - rot) % part_size
  (List.replicate num_parts_a part_size ++ (if pa > 0 then [pa] else []))
    ++ (List.replicate num_parts_b part_size ++ (if pb > 0 then [pb] else []))

/-- The inner splitting loops of `WordParts::new` for one entry of the
target size list: consume `sz` bit positions from the stream `s` into
parts, where `cur` is the current `part_bits`, `k` is `parts.len()` so far
and `ri` the running `rot_idx`.  The current part is closed early whenever
bit position `0` is reached with nonempty `part_bits`, and `rot_idx` is
set to the index of the part into which a `0` is pushed.  Returns the
parts produced for this chunk (in order), the remaining stream, and the
updated `rot_idx`.  (The stream-exhausted case is unreachable in
`WordParts::new`, where the target sizes sum to the stream length.) -/
def consumeChunk : Nat → List Nat → List Nat → Nat → Nat →
    List (List Nat) × List Nat × Nat
  | 0, cur, s, _, ri => ([cur], s, ri)
  | _ + 1, cur, [], _, ri => ([cur], [], ri)
  | n + 1, cur, b :: rest, k, ri =>
    if cur ≠ [] ∧ b = 0 then
      let r := consumeChunk n [b] rest (k + 1) (k + 1)
      (cur :: r.1, r.2)
    else
      consumeChunk n (cur ++ [b]) rest k (if b = 0 then k else ri)

/-- The chunk loop of `WordParts::new`: process each target size in turn,
threading the remaining stream, `parts.len()` and `rot_idx`.  Returns the
full parts list (in order) and the final `rot_idx`. -/
def buildParts : List Nat → List Nat → Nat → Nat → List (List Nat) × Nat
  | [], _, _, ri => ([], ri)
  | sz :: szs, s, k, ri =>
    let c := consumeChunk sz [] s k ri
    let rest := buildParts szs c.2.1 (k + c.1.length) c.2.2
    (c.1 ++ rest.1, rest.2)

/-- The part list and the pre-rotation `rot_idx` computed by
`WordParts::new`: bit positions `0..64` rotated right by `rot`, split
along the chosen target sizes. -/
def wordPartsBuild (part_size rot : Nat) (normalize : Bool) :
    List (List Nat) × Nat :=
  let bits := rotateRightVec (List.range NUM_BITS_PER_WORD) rot
  let target_sizes :=
    if normalize then target_part_sizes part_size
    else non_normalized_part_sizes part_size rot
  buildParts target_sizes bits 0 0

/-- `WordParts::new`: the bit-position lists of the parts, with the part
list rotated left by `rot_idx` so the part containing bit position 0 comes
first. -/
def WordParts.new (part_size rot : Nat) (normalize : Bool) : List (List Nat) :=
  let b := wordPartsBuild part_size rot normalize
  rotateLeftVec b.1 b.2

/-- The index (before the final cyclic rotation) of the part that begins
with the seam bit position 0, as a function of the target sizes and the
stream position of the seam: one part per full chunk before the seam,
plus one for a partially filled chunk cut early at the seam. -/
def seamIdx : List Nat → Nat → Nat
  | [], _ => 0
  | sz :: szs, pos =>
    if sz ≤ pos then 1 + seamIdx szs (pos - sz)
    else if pos = 0 then 0 else 1

/-! ### Assigned rows and the self checks (`src/circuit.rs`) -/

/-- Modelled from the spec: the witness engine's `KeccakAssignedRow`
(produced by the external `vanilla` module) restricted to the five cells
the binding layer reads — the finality flag, the packed digest's low/high
128-bit halves, the current round's word value, and the remaining-byte
counter. -/
structure KRow where
  is_final : Fr
  hash_lo : Fr
  hash_hi : Fr
  word_value : Fr
  bytes_left : Fr

instance : Inhabited KRow := ⟨⟨0, 0, 0, 0, 0⟩⟩

/-- `Iterator::step_by(n)`: every `n`-th element, starting from the first.
The countdown argument makes the recursion structural; `stepBy` starts it
at 0 so the head is always kept.  (Rust panics on `n = 0`; the binding
layer only uses positive steps.) -/
def stepByGo (n : Nat) : List α → Nat → List α
  | [], _ => []
  | x :: xs, 0 => x :: stepByGo n xs (n - 1)
  | _ :: xs, k + 1 => stepByGo n xs k

def stepBy (n : Nat) (l : List α) : List α := stepByGo n l 0

/-- The rows inspected by `verify_output_witnesses`:
`.step_by(rows_per_round).step_by(NUM_ROUNDS + 1).skip(1)` — the first row
of the last round of each block, the initial dummy round skipped. -/
def sampledRows (rows_per_round : Nat) (rows : List KRow) : List KRow :=
  (stepBy (NUM_ROUNDS + 1) (stepBy rows_per_round rows)).drop 1

/-- `u128::from_be_bytes(out[16..])`: the low half of a 32-byte digest. -/
def digestLo (out : List Nat) : Nat := fromBeBytes (out.drop 16)

/-- `u128::from_be_bytes(out[..16])`: the high half of a 32-byte digest. -/
def digestHi (out : List Nat) : Nat := fromBeBytes (out.take 16)

/-- The loop of `verify_output_witnesses` over the sampled rows, threading
`input_offset`; `false` models a failed `assert_eq!` or an `extract_u128`
panic.  `keccak` is the reference digest `Keccak256::digest` from the
external `sha3` crate, taken as a parameter. -/
def outputRowsOk (keccak : List Nat → List Nat) (inputs : List (List Nat)) :
    Nat → List KRow → Bool
  | _, [] => true
  | input_offset, row :: rest =>
    match extract_u128 row.hash_lo, extract_u128 row.hash_hi with
    | some hash_lo_val, some hash_hi_val =>
      if input_offset < inputs.length ∧ extract_value row.is_final ≠ 0 then
        if digestLo (keccak (inputs.getD input_offset []))  = hash_lo_val
            ∧ digestHi (keccak (inputs.getD input_offset [])) = hash_hi_val then
          outputRowsOk keccak inputs (input_offset + 1) rest
        else false
      else outputRowsOk keccak inputs input_offset rest
    | _, _ => false

/-- `verify_output_witnesses`. -/
def verify_output_witnesses (keccak : List Nat → List Nat)
    (inputs : List (List Nat)) (rows_per_round : Nat) (rows : List KRow) : Bool :=
  outputRowsOk keccak inputs 0 (sampledRows rows_per_round rows)

/-- A cell value fits the `u128` read of `extract_u128`. -/
def fits128 (x : Fr) : Prop := x.val < 2 ^ 128

/-- The sampled rows whose finality flag is nonzero. -/
def isFinalRow (r : KRow) : Bool := decide (extract_value r.is_final ≠ 0)

/-- A final row reports exactly the reference digest halves of input `j`. -/
def finalRowOk (keccak : List Nat → List Nat) (inputs : List (List Nat))
    (j : Nat) (r : KRow) : Prop :=
  r.hash_lo.val = digestLo (keccak (inputs.getD j []))
  ∧ r.hash_hi.val = digestHi (keccak (inputs.getD j []))

/-- The output self check property exactly as the claim states it, with no
128-bit fit requirement on the sampled cells. -/
def outputSpecClaim (keccak : List Nat → List Nat) (inputs : List (List Nat))
    (rows_per_round : Nat) (rows : List KRow) : Prop :=
  ∀ j, j < ((sampledRows rows_per_round rows).filter isFinalRow).length →
    j < inputs.length →
    finalRowOk keccak inputs j
      (((sampledRows rows_per_round rows).filter isFinalRow).getD j default)

/-- An all-zero assigned row. -/
def zeroRow : KRow := ⟨0, 0, 0, 0, 0⟩

/-- A sampled row whose `hash_lo` cell does not fit in 128 bits. -/
def badHashRow : KRow := ⟨0, ((2 ^ 128 : Nat) : Fr), 0, 0, 0⟩

/-! ### Input self check (`src/circuit.rs`) -/

/-- The walk structure shared by `verify_input_witnesses` and
`constraint_public_inputs`:
`assigned_rows.chunks(rows_per_round).skip(1).chunks(NUM_ROUNDS + 1)` —
rows are grouped into rounds, the first (dummy) round is skipped, and the
remaining rounds are grouped into blocks of `NUM_ROUNDS + 1` rounds (the
trailing block may be partial). -/
def blocksOf (rows_per_round : Nat) (rows : List KRow) : List (List (List KRow)) :=
  chunksOf (NUM_ROUNDS + 1) ((chunksOf rows_per_round rows).drop 1)

/-- The byte cursor after a row-index-0 row:
`if round_idx < NUM_WORDS_TO_ABSORB { min(cursor + NUM_BYTES_PER_WORD, len) }
else { cursor }`. -/
def endCursor (len cursor round_idx : Nat) : Nat :=
  if round_idx < NUM_WORDS_TO_ABSORB then min (cursor + NUM_BYTES_PER_WORD) len
  else cursor

/-- The word value the input self check expects at a row-index-0 row:
`input[cursor..end]` zero-padded to `NUM_BYTES_PER_WORD` bytes and read as
a little-endian `u64`. -/
def expectedWordVal (input : List Nat) (cursor round_idx : Nat) : Nat :=
  fromLeBytes (((input.drop cursor).take (endCursor input.length cursor round_idx - cursor))
    ++ List.replicate (NUM_BYTES_PER_WORD
        - ((input.drop cursor).take (endCursor input.length cursor round_idx - cursor)).length) 0)

/-- The `(absorbed, input_byte_offset)` state after one row of the input
walk.  The state evolution does not depend on the assertion outcomes: an
assertion failure aborts, it never changes state. -/
def stepRow (inputs : List (List Nat)) (off round_idx row_idx : Nat)
    (st : Bool × Nat) (r : KRow) : Bool × Nat :=
  if inputs.length ≤ off then st
  else
    let ab := if round_idx = NUM_ROUNDS ∧ row_idx = 0 ∧ extract_value r.is_final ≠ 0
      then true else st.1
    if row_idx = 0 then
      (ab, endCursor (inputs.getD off []).length st.2 round_idx)
    else (ab, st.2)

/-- One row of `verify_input_witnesses`: extract the `word_value` and
`bytes_left` cells, run the assertions (padding rows report zeros; live
row-index-0 rows report the byte counter and the expected packed word) and
return the updated `(absorbed, cursor)` state; `none` models a panic. -/
def checkRow (inputs : List (List Nat)) (off round_idx row_idx : Nat)
    (st : Bool × Nat) (r : KRow) : Option (Bool × Nat) :=
  match extract_u128 r.word_value, extract_u128 r.bytes_left with
  | some word_value_val, some bytes_left_val =>
    if inputs.length ≤ off then
      if word_value_val = 0 ∧ bytes_left_val = 0 then some st else none
    else
      let ab := if round_idx = NUM_ROUNDS ∧ row_idx = 0 ∧ extract_value r.is_final ≠ 0
        then true else st.1
      if row_idx = 0 then
        if bytes_left_val = (inputs.getD off []).length - st.2
            ∧ word_value_val = expectedWordVal (inputs.getD off []) st.2 round_idx then
          some (ab, endCursor (inputs.getD off []).length st.2 round_idx)
        else none
      else some (ab, st.2)
  | _, _ => none

/-- The rows of one round, with the enumerated row index; a `none` from
any row (a panic) aborts the whole check. -/
def checkRowsIn (inputs : List (List Nat)) (off round_idx : Nat) :
    Nat → (Bool × Nat) → List KRow → Option (Bool × Nat)
  | _, st, [] => some st
  | row_idx, st, r :: rs =>
    (checkRow inputs off round_idx row_idx st r).bind
      (fun st' => checkRowsIn inputs off round_idx (row_idx + 1) st' rs)

/-- The rounds of one block, with the enumerated round index. -/
def checkRounds (inputs : List (List Nat)) (off : Nat) :
    Nat → (Bool × Nat) → List (List KRow) → Option (Bool × Nat)
  | _, st, [] => some st
  | round_idx, st, rnd :: rnds =>
    (checkRowsIn inputs off round_idx 0 st rnd).bind
      (fun st' => checkRounds inputs off (round_idx + 1) st' rnds)

/-- The blocks: `absorbed` starts false per block; when it fires the input
offset advances and the cursor resets. -/
def checkBlocks (inputs : List (List Nat)) : Nat → Nat → List (List (List KRow)) → Bool
  | _, _, [] => true
  | off, cursor, blk :: bs =>
    (checkRounds inputs off 0 (false, cursor) blk).elim false
      (fun st' =>
        if st'.1 then checkBlocks inputs (off + 1) 0 bs
        else checkBlocks inputs off st'.2 bs)

/-- `verify_input_witnesses`. -/
def verify_input_witnesses (inputs : List (List Nat)) (rows_per_round : Nat)
    (rows : List KRow) : Bool :=
  checkBlocks inputs 0 0 (blocksOf rows_per_round rows)

/-- One annotated position of the input walk: the round index within the
block, the row index within the round, and the `input_offset` and byte
cursor in force when the row is visited. -/
structure TEntry where
  round_idx : Nat
  row_idx : Nat
  off : Nat
  cursor : Nat
  row : KRow

/-- Trace of one round: the entries, and the state after it. -/
def traceRowsIn (inputs : List (List Nat)) (off round_idx : Nat) :
    Nat → (Bool × Nat) → List KRow → List TEntry × (Bool × Nat)
  | _, st, [] => ([], st)
  | row_idx, st, r :: rs =>
    let rest := traceRowsIn inputs off round_idx (row_idx + 1)
      (stepRow inputs off round_idx row_idx st r) rs
    (⟨round_idx, row_idx, off, st.2, r⟩ :: rest.1, rest.2)

/-- Trace of one block's rounds. -/
def traceRounds (inputs : List (List Nat)) (off : Nat) :
    Nat → (Bool × Nat) → List (List KRow) → List TEntry × (Bool × Nat)
  | _, st, [] => ([], st)
  | round_idx, st, rnd :: rnds =>
    let t := traceRowsIn inputs off round_idx 0 st rnd
    let rest := traceRounds inputs off (round_idx + 1) t.2 rnds
    (t.1 ++ rest.1, rest.2)

/-- Trace of all blocks. -/
def traceBlocks (inputs : List (List Nat)) :
    Nat → Nat → List (List (List KRow)) → List TEntry
  | _, _, [] => []
  | off, cursor, blk :: bs =>
    let t := traceRounds inputs off 0 (false, cursor) blk
    t.1 ++ (if t.2.1 then traceBlocks inputs (off + 1) 0 bs
      else traceBlocks inputs off t.2.2 bs)

/-- The annotated walk of `verify_input_witnesses`. -/
def inputTrace (inputs : List (List Nat)) (rows_per_round : Nat)
    (rows : List KRow) : List TEntry :=
  traceBlocks inputs 0 0 (blocksOf rows_per_round rows)

/-- Per-row property of the (amended) claim, Bool version. -/
def entryOkB (inputs : List (List Nat)) (e : TEntry) : Bool :=
  match extract_u128 e.row.word_value, extract_u128 e.row.bytes_left with
  | some wv, some bl =>
    if inputs.length ≤ e.off then decide (wv = 0 ∧ bl = 0)
    else if e.row_idx = 0 then
      decide (bl = (inputs.getD e.off []).length - e.cursor
        ∧ wv = expectedWordVal (inputs.getD e.off []) e.cursor e.round_idx)
    else true
  | _, _ => false

/-- Per-row property of the (amended) claim, stated in the claim's terms:
the cells fit in 128 bits; padding rows (all inputs exhausted) report
`word_value = 0` and `bytes_left = 0`; live row-index-0 rows report
`bytes_left = input_length - cursor` and `word_value` equal to the packed
next bytes at the cursor (which is the empty slice, hence 0, at rounds
`≥ NUM_WORDS_TO_ABSORB`). -/
def entryOk (inputs : List (List Nat)) (e : TEntry) : Prop :=
  fits128 e.row.word_value ∧ fits128 e.row.bytes_left
  ∧ (inputs.length ≤ e.off → e.row.word_value.val = 0 ∧ e.row.bytes_left.val = 0)
  ∧ (e.off < inputs.length → e.row_idx = 0 →
      e.row.bytes_left.val = (inputs.getD e.off []).length - e.cursor
      ∧ e.row.word_value.val = expectedWordVal (inputs.getD e.off []) e.cursor e.round_idx)

/-- The input self check property exactly as the claim states it: padding
rows report zeros, and live row-index-0 rows report the byte counter and —
only within the first `NUM_WORDS_TO_ABSORB` rounds — the packed input
word.  (No 128-bit fit requirement, and no constraint on `word_value` at
rounds `≥ NUM_WORDS_TO_ABSORB` of a live block.) -/
def entryOkClaim (inputs : List (List Nat)) (e : TEntry) : Prop :=
  (inputs.length ≤ e.off → e.row.word_value = 0 ∧ e.row.bytes_left = 0)
  ∧ (e.off < inputs.length → e.row_idx = 0 →
      e.row.bytes_left.val = (inputs.getD e.off []).length - e.cursor
      ∧ (e.round_idx < NUM_WORDS_TO_ABSORB →
          e.row.word_value.val
            = expectedWordVal (inputs.getD e.off []) e.cursor e.round_idx))

instance (inputs : List (List Nat)) (e : TEntry) : Decidable (entryOkClaim inputs e) := by
  unfold entryOkClaim
  infer_instance

/-- A live row carrying a stray nonzero `word_value`. -/
def strayWordRow : KRow := ⟨0, 0, 0, 5, 0⟩

/-! ### Public input binding (`src/circuit.rs`) -/

/-- The mutable state of `constraint_public_inputs`: `input_offset`,
`total_offset`, `input_byte_offset`, and the per-block `absorbed` flag. -/
structure CpiState where
  input_offset : Nat
  total_offset : Nat
  input_byte_offset : Nat
  absorbed : Bool

/-- One row of `constraint_public_inputs`: the `constrain_instance` call
this row emits (if any) and the updated state.  As in the source, the
constrain call is gated only on `row_idx == 0` and on a byte of the
current input remaining — not on `round_idx < NUM_WORDS_TO_ABSORB` — and
an exhausted cursor `continue`s before the `absorbed` check is reached. -/
def cpiRow (inputs : List (List Nat)) (blk round_idx row_idx : Nat)
    (st : CpiState) (r : KRow) : List ((Nat × Nat × Nat) × Nat) × CpiState :=
  if inputs.length ≤ st.input_offset then ([], st)
  else
    let len := (inputs.getD st.input_offset []).length
    if len ≤ st.input_byte_offset then ([], st)
    else
      let ab := if round_idx = NUM_ROUNDS ∧ row_idx = 0 ∧ extract_value r.is_final ≠ 0
        then true else st.absorbed
      if row_idx = 0 then
        ([((blk, round_idx, row_idx), st.total_offset)],
          ⟨st.input_offset, st.total_offset + 1,
            endCursor len st.input_byte_offset round_idx, ab⟩)
      else ([], ⟨st.input_offset, st.total_offset, st.input_byte_offset, ab⟩)

/-- The rows of one round of the binding walk. -/
def cpiRows (inputs : List (List Nat)) (blk round_idx : Nat) :
    Nat → CpiState → List KRow → List ((Nat × Nat × Nat) × Nat) × CpiState
  | _, st, [] => ([], st)
  | row_idx, st, r :: rs =>
    let e := cpiRow inputs blk round_idx row_idx st r
    let rest := cpiRows inputs blk round_idx (row_idx + 1) e.2 rs
    (e.1 ++ rest.1, rest.2)

/-- The rounds of one block of the binding walk. -/
def cpiRounds (inputs : List (List Nat)) (blk : Nat) :
    Nat → CpiState → List (List KRow) → List ((Nat × Nat × Nat) × Nat) × CpiState
  | _, st, [] => ([], st)
  | round_idx, st, rnd :: rnds =>
    let e := cpiRows inputs blk round_idx 0 st rnd
    let rest := cpiRounds inputs blk (round_idx + 1) e.2 rnds
    (e.1 ++ rest.1, rest.2)

/-- The blocks of the binding walk: `absorbed` restarts false each block;
when set, the input offset advances and the byte cursor resets. -/
def cpiBlocks (inputs : List (List Nat)) :
    Nat → CpiState → List (List (List KRow)) → List ((Nat × Nat × Nat) × Nat)
  | _, _, [] => []
  | blk, st, b :: bs =>
    let e := cpiRounds inputs blk 0
      ⟨st.input_offset, st.total_offset, st.input_byte_offset, false⟩ b
    let st' := e.2
    e.1 ++ cpiBlocks inputs (blk + 1)
      (if st'.absorbed then ⟨st'.input_offset + 1, st'.total_offset, 0, false⟩
        else ⟨st'.input_offset, st'.total_offset, st'.input_byte_offset, false⟩) bs

/-- `constraint_public_inputs`: the ordered list of `constrain_instance`
calls.  Each element `((block, round_idx, row_idx), total_offset)` records
that the `word_value` cell at that walk position (block counted after the
skipped dummy round, round index within the block, row index within the
round) is constrained to public-input slot `total_offset`. -/
def constraint_public_inputs (inputs : List (List Nat)) (rows_per_round : Nat)
    (rows : List KRow) : List ((Nat × Nat × Nat) × Nat) :=
  cpiBlocks inputs 0 ⟨0, 0, 0, false⟩ (blocksOf rows_per_round rows)

lemma natPackBase_nil (base : Nat) : natPackBase base [] = 0 := rfl

lemma natPackBase_cons (base b : Nat) (bs : List Nat) :
    natPackBase base (b :: bs) = b + base * natPackBase base bs := rfl

lemma pack_with_base_eq_natCast (bits : List Nat) (base : Nat) :
    pack_with_base bits base = ((natPackBase base bits : Nat) : Fr) := by
  unfold pack_with_base
  rw [List.foldl_reverse]
  induction bits with
  | nil => simp [natPackBase]
  | cons b bs ih =>
      simp only [List.foldr_cons, ih, natPackBase_cons]
      push_cast
      ring

lemma natPackBase_lt (base : Nat) (bits : List Nat)
    (hb : ∀ b ∈ bits, b < base) : natPackBase base bits < base ^ bits.length := by
  induction bits with
  | nil => simp [natPackBase]
  | cons b bs ih =>
      have hbase : 0 < base := Nat.pos_of_ne_zero (by
        intro h
        exact absurd (hb b (by simp)) (by simp [h]))
      have h1 : natPackBase base bs < base ^ bs.length :=
        ih (fun x hx => hb x (by simp [hx]))
      have h2 : b < base := hb b (by simp)
      calc b + base * natPackBase base bs
          < base + base * natPackBase base bs := by omega
        _ = base * (natPackBase base bs + 1) := by ring
        _ ≤ base * base ^ bs.length := by
            exact Nat.mul_le_mul_left base (by omega)
        _ = base ^ (b :: bs).length := by
            simp [List.length_cons, pow_succ, Nat.mul_comm]

lemma natPackBase_digit (base : Nat) (bits : List Nat)
    (hb : ∀ b ∈ bits, b < base) (hbase : 0 < base) (i : Nat) :
    natPackBase base bits / base ^ i % base = bits.getD i 0 := by
  induction bits generalizing i with
  | nil => simp [natPackBase, Nat.zero_mod]
  | cons b bs ih =>
      cases i with
      | zero =>
          have h2 : b < base := hb b (by simp)
          simp only [natPackBase_cons, pow_zero, Nat.div_one, List.getD_cons_zero]
          rw [Nat.add_mul_mod_self_left, Nat.mod_eq_of_lt h2]
      | succ i =>
          have h2 : b < base := hb b (by simp)
          have hdiv : (b + base * natPackBase base bs) / base = natPackBase base bs := by
            rw [Nat.add_mul_div_left _ _ hbase, Nat.div_eq_of_lt h2, Nat.zero_add]
          simp only [natPackBase_cons, List.getD_cons_succ]
          rw [pow_succ', ← Nat.div_div_eq_div_mul, hdiv]
          exact ih (fun x hx => hb x (by simp [hx])) i

lemma map_getD_range (l : List Nat) :
    (List.range l.length).map (fun i => l.getD i 0) = l := by
  induction l with
  | nil => simp
  | cons a l ih =>
      rw [List.length_cons, List.range_succ_eq_map, List.map_cons, List.map_map]
      simp only [List.getD_cons_zero, Function.comp]
      congr 1

/-- C5: for every list of 64 bit-values drawn from `[0, BIT_SIZE)` (in
particular from `{0,1}`), unpacking the packed sparse word over the proof
system's scalar field returns exactly the original values:
`unpack (pack bits) = bits`. -/
theorem C5_unpack_pack (bits : List Nat)
    (hlen : bits.length = NUM_BITS_PER_WORD)
    (hb : ∀ b ∈ bits, b < BIT_SIZE) :
    unpack (pack bits) = bits := by
  have hbase : (BIT_SIZE : Nat) = 8 := by norm_num [BIT_SIZE, BIT_COUNT]
  have hlt : natPackBase BIT_SIZE bits < P := by
    have h1 : natPackBase BIT_SIZE bits < BIT_SIZE ^ bits.length :=
      natPackBase_lt BIT_SIZE bits hb
    have h2 : (BIT_SIZE : Nat) ^ bits.length < P := by
      rw [hbase, hlen]
      norm_num [NUM_BITS_PER_WORD, NUM_BYTES_PER_WORD, NUM_BITS_PER_BYTE, P]
    omega
  have hval : (pack bits).val = natPackBase BIT_SIZE bits := by
    rw [pack, pack_with_base_eq_natCast]
    exact ZMod.val_cast_of_lt hlt
  unfold unpack
  rw [hval]
  have hdig : ∀ idx : Nat,
      natPackBase BIT_SIZE bits >>> (idx * BIT_COUNT) &&& (BIT_SIZE - 1)
        = bits.getD idx 0 := by
    intro idx
    have hmask : (BIT_SIZE - 1) = 2 ^ BIT_COUNT - 1 := by rfl
    rw [hmask, Nat.shiftRight_eq_div_pow, Nat.and_pow_two_sub_one_eq_mod]
    have hpow : (2 : Nat) ^ (idx * BIT_COUNT) = BIT_SIZE ^ idx := by
      rw [BIT_SIZE, ← pow_mul, Nat.mul_comm]
    rw [hpow]
    have h8 : (2 : Nat) ^ BIT_COUNT = BIT_SIZE := rfl
    rw [h8]
    exact natPackBase_digit BIT_SIZE bits hb (by norm_num [hbase]) idx
  calc (List.range NUM_BITS_PER_WORD).map
        (fun idx => natPackBase BIT_SIZE bits >>> (idx * BIT_COUNT) &&& (BIT_SIZE - 1))
      = (List.range NUM_BITS_PER_WORD).map (fun idx => bits.getD idx 0) := by
        exact List.map_congr_left (fun i _ => hdig i)
    _ = bits := by rw [← hlen]; exact map_getD_range bits

/-- Witness for C5 at a concrete input: the all-ones bit pattern. -/
theorem C5_unpack_pack_witness :
    ((List.replicate 64 1 : List Nat).length = NUM_BITS_PER_WORD
      ∧ ∀ b ∈ (List.replicate 64 1 : List Nat), b < BIT_SIZE)
    ∧ unpack (pack (List.replicate 64 1)) = List.replicate 64 1 :=
  ⟨⟨by decide, by decide⟩, C5_unpack_pack (List.replicate 64 1) (by decide) (by decide)⟩

lemma chunksGo_eq (n : Nat) (xs : List α) :
    ∀ (k : Nat) (acc : List α),
      chunksGo (n + 1) xs acc k
        = (acc.reverse ++ xs.take k) :: chunksOf (n + 1) (xs.drop k) := by
  induction xs with
  | nil => intro k acc; simp [chunksGo, chunksOf]
  | cons x xs ih =>
      intro k acc
      cases k with
      | zero =>
          simp only [List.take_zero, List.append_nil, List.drop_zero]
          rfl
      | succ k =>
          simp only [chunksGo, List.take_succ_cons, List.drop_succ_cons]
          rw [ih k (x :: acc)]
          simp

lemma chunksOf_cons_eq (n : Nat) (l : List α) (hl : l ≠ []) :
    chunksOf (n + 1) l = l.take (n + 1) :: chunksOf (n + 1) (l.drop (n + 1)) := by
  match l with
  | [] => exact absurd rfl hl
  | x :: xs =>
      show chunksGo (n + 1) xs [x] n = _
      rw [chunksGo_eq n xs n [x]]
      simp

lemma chunksOf_nil (n : Nat) : chunksOf n ([] : List α) = [] := by
  cases n <;> rfl

/-- Ceiling division helper: the number of chunks `chunksOf (n+1)` makes. -/
lemma ceil_chunks_succ (m len : Nat) (hm : 0 < m) (hlen : 0 < len) :
    (len + m - 1) / m = (len - m + m - 1) / m + 1 := by
  rcases Nat.le_total len m with h | h
  · have h3 : len + m - 1 = (len - 1) + m := by omega
    have h4 : len - m + m - 1 = m - 1 := by omega
    rw [h3, Nat.add_div_right _ hm, h4]
    have h5 : (m - 1) / m = 0 := Nat.div_eq_of_lt (by omega)
    have h6 : (len - 1) / m = 0 := Nat.div_eq_of_lt (by omega)
    omega
  · have h3 : len + m - 1 = (len - m + m - 1) + m := by omega
    rw [h3, Nat.add_div_right _ hm]

/-- `chunksOf` in closed form: chunk `j` is `(l.drop (m*j)).take m`, and
there are `ceil (l.length / m)` chunks. -/
lemma chunksOf_eq_range_map (m : Nat) (hm : 0 < m) (l : List α) :
    chunksOf m l
      = (List.range ((l.length + m - 1) / m)).map (fun j => (l.drop (m * j)).take m) := by
  obtain ⟨n, rfl⟩ : ∃ n, m = n + 1 := ⟨m - 1, by omega⟩
  generalize hlen : l.length = len
  induction len using Nat.strong_induction_on generalizing l with
  | _ len ih =>
      match l, hlen with
      | [], hlen =>
          have hl0 : len = 0 := by simpa using hlen.symm
          subst hl0
          rw [chunksOf_nil]
          have h0 : (0 + (n + 1) - 1) / (n + 1) = 0 := Nat.div_eq_of_lt (by omega)
          rw [h0]
          simp
      | x :: xs, hlen =>
          have hlpos : 0 < len := by simp [← hlen]
          rw [chunksOf_cons_eq n (x :: xs) (by simp)]
          have hdroplen : ((x :: xs).drop (n + 1)).length = len - (n + 1) := by
            simp [← hlen]
          have hrec := ih (len - (n + 1)) (by omega) ((x :: xs).drop (n + 1)) hdroplen
          rw [hrec]
          rw [ceil_chunks_succ (n + 1) len (by omega) hlpos]
          rw [List.range_succ_eq_map, List.map_cons, List.map_map]
          simp only [Nat.mul_zero, List.drop_zero]
          congr 1
          apply List.map_congr_left
          intro j _
          simp only [Function.comp_apply]
          rw [List.drop_drop]
          congr 2
          simp [Nat.succ_eq_add_one]
          ring

lemma pack_input_single (inp : List Nat) :
    (chunksOf NUM_BYTES_PER_WORD inp).map (fun chunk =>
        ((fromLeBytes (chunk ++ List.replicate (NUM_BYTES_PER_WORD - chunk.length) 0) : Nat) : Fr))
      = (List.range ((inp.length + 7) / 8)).map (fun j =>
          ((fromLeBytes (((inp.drop (8 * j)).take 8)
              ++ List.replicate (8 - ((inp.drop (8 * j)).take 8).length) 0) : Nat) : Fr)) := by
  have h8 : NUM_BYTES_PER_WORD = 8 := rfl
  rw [h8, chunksOf_eq_range_map 8 (by omega) inp, List.map_map]
  have harith : inp.length + 8 - 1 = inp.length + 7 := by omega
  rw [harith]
  rfl

lemma pack_input_flatMap (l : List (List Nat)) :
    pack_input_to_instance l
      = l.flatMap (fun inp =>
          (List.range ((inp.length + 7) / 8)).map (fun j =>
            ((fromLeBytes (((inp.drop (8 * j)).take 8)
                ++ List.replicate (8 - ((inp.drop (8 * j)).take 8).length) 0) : Nat) : Fr))) := by
  unfold pack_input_to_instance
  induction l with
  | nil => rfl
  | cons inp rest ih =>
      rw [List.flatMap_cons, List.flatMap_cons, ih, pack_input_single]

/-- C6: `pack_input_to_instance` chunks each input's bytes into consecutive
groups of 8 (`NUM_BYTES_PER_WORD`), zero-pads the final partial group to 8
bytes, interprets each group as a little-endian 64-bit integer converted to
a field element, and concatenates the elements preserving input order;
consequently the output length is the sum over all inputs of
`ceil (len input / 8)`. -/
theorem C6_pack_input_shape (l : List (List Nat)) :
    pack_input_to_instance l
      = l.flatMap (fun inp =>
          (List.range ((inp.length + 7) / 8)).map (fun j =>
            ((fromLeBytes (((inp.drop (8 * j)).take 8)
                ++ List.replicate (8 - ((inp.drop (8 * j)).take 8).length) 0) : Nat) : Fr)))
    ∧ (pack_input_to_instance l).length
      = (l.map (fun inp => (inp.length + 7) / 8)).sum := by
  refine ⟨pack_input_flatMap l, ?_⟩
  rw [pack_input_flatMap l, List.length_flatMap]
  congr 1
  apply List.map_congr_left
  intro inp _
  simp

/-- C9 counterexample: the round-trip
`unpack_input (pack_input_to_instance [b]) = b` fails already for the
two-byte input `b = [1, 2]`: the packer stores both bytes in one field
element (value 513) and the unpacker recovers only the low byte, giving
`[1]`. -/
theorem C9_counterexample :
    unpack_input (pack_input_to_instance [[1, 2]]) ≠ [1, 2] := by decide

/-- C9 (amended): the round-trip through `pack_input_to_instance` followed
by `unpack_input` holds exactly on the one-byte-per-element path, i.e. for
byte sequences of length at most 1 (for longer inputs the packer stores up
to 8 bytes per element while the unpacker recovers only one). -/
theorem C9_unpack_pack_single (b : List Nat) (hlen : b.length ≤ 1)
    (hb : ∀ x ∈ b, x < 256) :
    unpack_input (pack_input_to_instance [b]) = b := by
  match b, hlen with
  | [], _ => rfl
  | [x], _ =>
      have hx : x < 256 := hb x (by simp)
      have hxP : (x : Nat) < P := lt_trans hx (by norm_num [P])
      show [((x : Nat) : Fr).val % 256] = [x]
      rw [ZMod.val_cast_of_lt hxP, Nat.mod_eq_of_lt hx]

/-- Witness for C9 (amended) at the concrete one-byte input `[7]`. -/
theorem C9_witness :
    (([7] : List Nat).length ≤ 1 ∧ ∀ x ∈ ([7] : List Nat), x < 256)
    ∧ unpack_input (pack_input_to_instance [[7]]) = [7] :=
  ⟨⟨by decide, by decide⟩, C9_unpack_pack_single [7] (by decide) (by decide)⟩

/-- C2: whenever the inputs map contains the key `"in"`, the public-input
vector returned by `generate_halo2_proof` is exactly
`pack_input_to_instance` applied to the single byte sequence
`unpack_input raw` recovered from the `"in"` field elements. -/
theorem C2_prove_instance (inputs : List (String × List Fr)) (raw : List Fr)
    (h : inputs.lookup "in" = some raw) :
    generate_halo2_proof inputs
      = Except.ok (pack_input_to_instance [unpack_input raw]) := by
  unfold generate_halo2_proof
  rw [h]

/-- Witness for C2 at a concrete inputs map. -/
theorem C2_prove_instance_witness :
    ([("in", ([] : List Fr))].lookup "in" = some [])
    ∧ generate_halo2_proof [("in", ([] : List Fr))]
        = Except.ok (pack_input_to_instance [unpack_input []]) :=
  ⟨rfl, C2_prove_instance [("in", [])] [] rfl⟩

lemma fromLeBytes_cons (b : Nat) (bs : List Nat) :
    fromLeBytes (b :: bs) = b + 256 * fromLeBytes bs := rfl

/-- Little-endian value of a window of base-256 digits of `n`. -/
lemma fromLeBytes_digits (k : Nat) : ∀ (s n : Nat),
    fromLeBytes ((List.range k).map (fun i => n / 256 ^ (s + i) % 256))
      = n / 256 ^ s % 256 ^ k := by
  induction k with
  | zero => intro s n; simp [fromLeBytes, Nat.mod_one]
  | succ k ih =>
      intro s n
      rw [List.range_succ_eq_map, List.map_cons, List.map_map, fromLeBytes_cons]
      have hmap : ((fun i => n / 256 ^ (s + i) % 256) ∘ Nat.succ)
          = (fun i => n / 256 ^ ((s + 1) + i) % 256) := by
        funext i
        have hexp : s + Nat.succ i = (s + 1) + i := by omega
        simp [Function.comp, hexp]
      rw [hmap, ih (s + 1) n]
      simp only [Nat.add_zero]
      have hdd : n / 256 ^ (s + 1) = (n / 256 ^ s) / 256 := by
        rw [Nat.div_div_eq_div_mul, ← pow_succ]
      rw [hdd]
      generalize n / 256 ^ s = a
      rw [pow_succ']
      exact (Nat.mod_mul).symm

lemma to_bytes_le_getD (x : Fr) (i : Nat) (h : i < 32) :
    (to_bytes_le x).getD i 0 = x.val / 256 ^ i % 256 := by
  unfold to_bytes_le
  rw [List.getD_eq_getElem _ _ (by simpa using h)]
  simp

lemma to_bytes_le_split (x : Fr) :
    (to_bytes_le x).take 16 = (List.range 16).map (fun i => x.val / 256 ^ i % 256)
    ∧ (to_bytes_le x).drop 16
        = (List.range 16).map (fun i => x.val / 256 ^ (16 + i) % 256) := by
  unfold to_bytes_le
  have h32 : (32 : Nat) = 16 + 16 := by omega
  rw [h32, List.range_add, List.map_append, List.map_map]
  constructor
  · rw [List.take_left' (by simp)]
  · rw [List.drop_left' (by simp)]
    apply List.map_congr_left
    intro i _
    simp [Function.comp]

lemma val_lt_two_pow_256 (x : Fr) : x.val < 2 ^ 256 := by
  have h := ZMod.val_lt x
  have hP : P < 2 ^ 256 := by norm_num [P]
  omega

/-- `extract_u128` in closed form: succeeds exactly on values below
`2 ^ 128` and then returns the canonical value itself. -/
lemma extract_u128_eq (x : Fr) :
    extract_u128 x = if x.val < 2 ^ 128 then some x.val else none := by
  simp only [extract_u128, extract_value]
  rw [(to_bytes_le_split x).1, (to_bytes_le_split x).2]
  have hhi : fromLeBytes ((List.range 16).map (fun i => x.val / 256 ^ (16 + i) % 256))
      = x.val / 2 ^ 128 := by
    rw [fromLeBytes_digits 16 16 x.val]
    have h1 : (256 : Nat) ^ 16 = 2 ^ 128 := by norm_num
    rw [h1]
    have h2 : x.val / 2 ^ 128 < 2 ^ 128 := by
      have := val_lt_two_pow_256 x
      have h3 : x.val / 2 ^ 128 < 2 ^ 256 / 2 ^ 128 + 1 := by
        apply Nat.lt_succ_of_le
        apply Nat.div_le_div_right
        omega
      norm_num at h3 ⊢
      omega
    exact Nat.mod_eq_of_lt h2
  have hlo : fromLeBytes ((List.range 16).map (fun i => x.val / 256 ^ i % 256))
      = x.val % 2 ^ 128 := by
    have h0 : (fun i => x.val / 256 ^ i % 256) = (fun i => x.val / 256 ^ (0 + i) % 256) := by
      funext i
      simp
    rw [h0, fromLeBytes_digits 16 0 x.val]
    norm_num
  rw [hhi, hlo]
  by_cases h : x.val < 2 ^ 128
  · have hdiv : x.val / 2 ^ 128 = 0 := Nat.div_eq_of_lt h
    rw [hdiv, if_pos rfl, if_pos h, Nat.mod_eq_of_lt h]
  · have hdiv : x.val / 2 ^ 128 ≠ 0 := by
      intro h0
      rw [Nat.div_eq_zero_iff (by norm_num)] at h0
      exact h h0
    rw [if_neg hdiv, if_neg h]

/-- C10: every witness cell read through `extract_u128` must fit in 128
bits: if any byte 16..31 of the cell value's canonical little-endian
representation is nonzero, `extract_u128` panics (returns `none`);
otherwise it returns the cell's integer value. -/
theorem C10_extract_u128 (x : Fr) :
    ((∃ i, i < 32 ∧ 16 ≤ i ∧ (to_bytes_le x).getD i 0 ≠ 0) → extract_u128 x = none)
    ∧ ((∀ i, i < 32 → 16 ≤ i → (to_bytes_le x).getD i 0 = 0)
        → extract_u128 x = some x.val) := by
  constructor
  · rintro ⟨i, hi32, hi16, hne⟩
    rw [to_bytes_le_getD x i hi32] at hne
    rw [extract_u128_eq]
    have hge : ¬ x.val < 2 ^ 128 := by
      intro hlt
      apply hne
      have hdiv : x.val / 256 ^ i = 0 := by
        apply Nat.div_eq_of_lt
        calc x.val < 2 ^ 128 := hlt
          _ = 256 ^ 16 := by norm_num
          _ ≤ 256 ^ i := Nat.pow_le_pow_right (by omega) hi16
      rw [hdiv]
    rw [if_neg hge]
  · intro hz
    rw [extract_u128_eq]
    have hlt : x.val < 2 ^ 128 := by
      by_contra hge
      push_neg at hge
      set q := x.val / 2 ^ 128 with hq
      have hqpos : 0 < q := by
        rw [hq]
        exact Nat.div_pos hge (by norm_num)
      have hqlt : q < 2 ^ 128 := by
        have := val_lt_two_pow_256 x
        rw [hq]
        have h3 : x.val / 2 ^ 128 ≤ (2 ^ 256 - 1) / 2 ^ 128 := by
          apply Nat.div_le_div_right
          omega
        norm_num at h3
        omega
      have hdig : ∀ j, j < 16 → q / 256 ^ j % 256 = 0 := by
        intro j hj
        have h1 := hz (16 + j) (by omega) (by omega)
        rw [to_bytes_le_getD x (16 + j) (by omega)] at h1
        have h2 : x.val / 256 ^ (16 + j) = q / 256 ^ j := by
          rw [hq, pow_add]
          rw [Nat.div_div_eq_div_mul]
          congr 1
        rw [h2] at h1
        exact h1
      have hsum := fromLeBytes_digits 16 0 q
      rw [List.map_congr_left (fun i hi => by
        simp only [Nat.zero_add]
        exact hdig i (by simpa using hi))] at hsum
      have hzero : fromLeBytes ((List.range 16).map (fun _ => (0 : Nat))) = 0 := by decide
      rw [hzero] at hsum
      have hqmod : q % 256 ^ 16 = q := by
        apply Nat.mod_eq_of_lt
        have : (256 : Nat) ^ 16 = 2 ^ 128 := by norm_num
        omega
      rw [pow_zero, Nat.div_one, hqmod] at hsum
      omega
    rw [if_pos hlt]

/-- Witness for C10 at the zero field element. -/
theorem C10_extract_u128_witness :
    (∀ i, i < 32 → 16 ≤ i → (to_bytes_le (0 : Fr)).getD i 0 = 0)
    ∧ extract_u128 (0 : Fr) = some (0 : Fr).val :=
  ⟨by decide, (C10_extract_u128 0).2 (by decide)⟩

/-! ### Bit-part splitter (`src/util/mod.rs`) -/

lemma NUM_BITS_PER_WORD_eq : NUM_BITS_PER_WORD = 64 := rfl

lemma consumeChunk_flatten (sz : Nat) : ∀ (cur s : List Nat) (k ri : Nat),
    (consumeChunk sz cur s k ri).1.flatten = cur ++ s.take sz := by
  induction sz with
  | zero => intro cur s k ri; simp [consumeChunk]
  | succ n ih =>
      intro cur s k ri
      cases s with
      | nil => simp [consumeChunk]
      | cons b rest =>
          by_cases h : cur ≠ [] ∧ b = 0
          · simp only [consumeChunk, if_pos h, List.flatten_cons]
            rw [ih [b] rest (k + 1) (k + 1)]
            simp [List.take_succ_cons]
          · simp only [consumeChunk, if_neg h]
            rw [ih (cur ++ [b]) rest k _]
            simp [List.take_succ_cons]

lemma consumeChunk_rest (sz : Nat) : ∀ (cur s : List Nat) (k ri : Nat),
    (consumeChunk sz cur s k ri).2.1 = s.drop sz := by
  induction sz with
  | zero => intro cur s k ri; simp [consumeChunk]
  | succ n ih =>
      intro cur s k ri
      cases s with
      | nil => simp [consumeChunk]
      | cons b rest =>
          by_cases h : cur ≠ [] ∧ b = 0
          · simp only [consumeChunk, if_pos h]
            rw [ih [b] rest (k + 1) (k + 1)]
            simp
          · simp only [consumeChunk, if_neg h]
            rw [ih (cur ++ [b]) rest k _]
            simp

lemma consumeChunk_ri_of_not_mem (sz : Nat) : ∀ (cur s : List Nat) (k ri : Nat),
    0 ∉ s.take sz → (consumeChunk sz cur s k ri).2.2 = ri := by
  induction sz with
  | zero => intro cur s k ri _; simp [consumeChunk]
  | succ n ih =>
      intro cur s k ri h0
      cases s with
      | nil => simp [consumeChunk]
      | cons b rest =>
          rw [List.take_succ_cons] at h0
          have hb : b ≠ 0 := fun hb => h0 (by simp [hb])
          have hcond : ¬ (cur ≠ [] ∧ b = 0) := fun hc => hb hc.2
          simp only [consumeChunk, if_neg hcond, if_neg hb]
          exact ih (cur ++ [b]) rest k ri (fun hm => h0 (by simp [hm]))

lemma consumeChunk_parts_of_not_mem (sz : Nat) : ∀ (cur s : List Nat) (k ri : Nat),
    0 ∉ s.take sz → (consumeChunk sz cur s k ri).1 = [cur ++ s.take sz] := by
  induction sz with
  | zero => intro cur s k ri _; simp [consumeChunk]
  | succ n ih =>
      intro cur s k ri h0
      cases s with
      | nil => simp [consumeChunk]
      | cons b rest =>
          rw [List.take_succ_cons] at h0
          have hb : b ≠ 0 := fun hb => h0 (by simp [hb])
          have hcond : ¬ (cur ≠ [] ∧ b = 0) := fun hc => hb hc.2
          simp only [consumeChunk, if_neg hcond]
          rw [ih (cur ++ [b]) rest k _ (fun hm => h0 (by simp [hm]))]
          simp [List.take_succ_cons]

lemma consumeChunk_first_part (sz : Nat) : ∀ (c0 : Nat) (cur' s : List Nat) (k ri : Nat),
    ∃ t rst, (consumeChunk sz (c0 :: cur') s k ri).1 = (c0 :: (cur' ++ t)) :: rst := by
  induction sz with
  | zero => intro c0 cur' s k ri; exact ⟨[], [], by simp [consumeChunk]⟩
  | succ n ih =>
      intro c0 cur' s k ri
      cases s with
      | nil => exact ⟨[], [], by simp [consumeChunk]⟩
      | cons b rest =>
          by_cases hb : b = 0
          · have hcond : ((c0 :: cur') ≠ [] ∧ b = 0) := ⟨by simp, hb⟩
            refine ⟨[], (consumeChunk n [b] rest (k + 1) (k + 1)).1, ?_⟩
            simp only [consumeChunk, if_pos hcond]
            simp
          · have hcond : ¬ ((c0 :: cur') ≠ [] ∧ b = 0) := fun hc => hb hc.2
            obtain ⟨t, rst, ht⟩ := ih c0 (cur' ++ [b]) rest k (if b = 0 then k else ri)
            refine ⟨[b] ++ t, rst, ?_⟩
            simp only [consumeChunk, if_neg hcond]
            rw [← List.cons_append] at ht
            rw [ht]
            simp

lemma consumeChunk_seam (u : List Nat) : ∀ (sz : Nat) (cur s v : List Nat) (k ri : Nat),
    s.take sz = u ++ 0 :: v → 0 ∉ u → 0 ∉ v →
    (consumeChunk sz cur s k ri).2.2 = k + (if cur = [] ∧ u = [] then 0 else 1)
    ∧ (if cur = [] ∧ u = [] then 0 else 1) < (consumeChunk sz cur s k ri).1.length
    ∧ ((consumeChunk sz cur s k ri).1.getD (if cur = [] ∧ u = [] then 0 else 1) []).head?
        = some 0 := by
  induction u with
  | nil =>
      intro sz cur s v k ri htake hu hv
      match sz, s, htake with
      | Nat.succ m, b :: s', htake =>
          rw [List.take_succ_cons, List.nil_append] at htake
          have hb : b = 0 := ((List.cons.injEq _ _ _ _).mp htake).1
          have hs' : s'.take m = v := ((List.cons.injEq _ _ _ _).mp htake).2
          subst hb
          by_cases hcur : cur = []
          · subst hcur
            rw [if_pos ⟨rfl, rfl⟩]
            have hri := consumeChunk_ri_of_not_mem m [0] s' k k (by rw [hs']; exact hv)
            obtain ⟨t, rst, hfp⟩ := consumeChunk_first_part m 0 [] s' k k
            refine ⟨?_, ?_, ?_⟩
            · show (consumeChunk m [0] s' k k).2.2 = k + 0
              rw [hri, Nat.add_zero]
            · show 0 < (consumeChunk m [0] s' k k).1.length
              rw [hfp]
              simp
            · show ((consumeChunk m [0] s' k k).1.getD 0 []).head? = some 0
              rw [hfp]
              simp
          · have hifneg : ¬ (cur = [] ∧ ([] : List Nat) = []) := fun hc => hcur hc.1
            rw [if_neg hifneg]
            have hcond : (cur ≠ [] ∧ (0 : Nat) = 0) := ⟨hcur, rfl⟩
            have hstep : consumeChunk (m + 1) cur (0 :: s') k ri
                = (cur :: (consumeChunk m [0] s' (k + 1) (k + 1)).1,
                   (consumeChunk m [0] s' (k + 1) (k + 1)).2) := by
              show (if cur ≠ [] ∧ (0 : Nat) = 0 then
                  (cur :: (consumeChunk m [0] s' (k + 1) (k + 1)).1,
                   (consumeChunk m [0] s' (k + 1) (k + 1)).2)
                else consumeChunk m (cur ++ [0]) s' k (if (0 : Nat) = 0 then k else ri))
                = (cur :: (consumeChunk m [0] s' (k + 1) (k + 1)).1,
                   (consumeChunk m [0] s' (k + 1) (k + 1)).2)
              rw [if_pos hcond]
            rw [hstep]
            have hri := consumeChunk_ri_of_not_mem m [0] s' (k + 1) (k + 1)
              (by rw [hs']; exact hv)
            obtain ⟨t, rst, hfp⟩ := consumeChunk_first_part m 0 [] s' (k + 1) (k + 1)
            refine ⟨by rw [hri], ?_, ?_⟩
            · show 1 < (cur :: (consumeChunk m [0] s' (k + 1) (k + 1)).1).length
              rw [hfp]
              simp
            · show ((cur :: (consumeChunk m [0] s' (k + 1) (k + 1)).1).getD 1 []).head? = some 0
              rw [List.getD_cons_succ, hfp]
              simp
  | cons a u' ih =>
      intro sz cur s v k ri htake hu hv
      match sz, s, htake with
      | Nat.succ m, b :: s', htake =>
          rw [List.take_succ_cons, List.cons_append] at htake
          have hb : b = a := ((List.cons.injEq _ _ _ _).mp htake).1
          have hs' : s'.take m = u' ++ 0 :: v := ((List.cons.injEq _ _ _ _).mp htake).2
          have hbne : b ≠ 0 := by rw [hb]; exact fun h => hu (by simp [h])
          have hcond : ¬ (cur ≠ [] ∧ b = 0) := fun hc => hbne hc.2
          have hu' : 0 ∉ u' := fun h => hu (by simp [h])
          have hih := ih m (cur ++ [b]) s' v k ri hs' hu' hv
          rw [if_neg (show ¬ (cur ++ [b] = [] ∧ u' = []) from
            fun hc => absurd hc.1 (by simp))] at hih
          rw [if_neg (show ¬ (cur = [] ∧ a :: u' = []) from
            fun hc => absurd hc.2 (by simp))]
          have hstep : consumeChunk (m + 1) cur (b :: s') k ri
              = consumeChunk m (cur ++ [b]) s' k (if b = 0 then k else ri) := by
            show (if cur ≠ [] ∧ b = 0 then
                (cur :: (consumeChunk m [b] s' (k + 1) (k + 1)).1,
                 (consumeChunk m [b] s' (k + 1) (k + 1)).2)
              else consumeChunk m (cur ++ [b]) s' k (if b = 0 then k else ri))
              = consumeChunk m (cur ++ [b]) s' k (if b = 0 then k else ri)
            rw [if_neg hcond]
          rw [hstep, if_neg hbne]
          exact hih

lemma buildParts_flatten (sts : List Nat) : ∀ (s : List Nat) (k ri : Nat),
    (buildParts sts s k ri).1.flatten = s.take sts.sum := by
  induction sts with
  | nil => intro s k ri; simp [buildParts]
  | cons sz szs ih =>
      intro s k ri
      simp only [buildParts, List.flatten_append]
      rw [consumeChunk_flatten sz [] s k ri, consumeChunk_rest sz [] s k ri, ih]
      rw [List.sum_cons, List.take_add]
      simp

lemma buildParts_ri_of_not_mem (sts : List Nat) : ∀ (s : List Nat) (k ri : Nat),
    0 ∉ s → (buildParts sts s k ri).2 = ri := by
  induction sts with
  | nil => intro s k ri _; rfl
  | cons sz szs ih =>
      intro s k ri h0
      simp only [buildParts]
      rw [consumeChunk_rest sz [] s k ri,
        consumeChunk_ri_of_not_mem sz [] s k ri (fun hm => h0 (List.mem_of_mem_take hm))]
      exact ih _ _ _ (fun hm => h0 (List.mem_of_mem_drop hm))

lemma seamIdx_cons (sz : Nat) (szs : List Nat) (pos : Nat) :
    seamIdx (sz :: szs) pos
      = if sz ≤ pos then 1 + seamIdx szs (pos - sz)
        else if pos = 0 then 0 else 1 := rfl

lemma buildParts_seam (sts : List Nat) : ∀ (u v : List Nat) (k ri : Nat),
    0 ∉ u → 0 ∉ v → u.length < sts.sum →
    (buildParts sts (u ++ 0 :: v) k ri).2 = k + seamIdx sts u.length
    ∧ seamIdx sts u.length < (buildParts sts (u ++ 0 :: v) k ri).1.length
    ∧ ((buildParts sts (u ++ 0 :: v) k ri).1.getD (seamIdx sts u.length) []).head?
        = some 0 := by
  induction sts with
  | nil => intro u v k ri _ _ hlt; simp at hlt
  | cons sz szs ih =>
      intro u v k ri hu hv hlt
      rw [List.sum_cons] at hlt
      by_cases hle : sz ≤ u.length
      · -- this chunk lies entirely before the seam and yields one part
        have htake : (u ++ 0 :: v).take sz = u.take sz :=
          List.take_append_of_le_length hle
        have h0take : 0 ∉ (u ++ 0 :: v).take sz := by
          rw [htake]; exact fun hm => hu (List.mem_of_mem_take hm)
        have hparts := consumeChunk_parts_of_not_mem sz [] (u ++ 0 :: v) k ri h0take
        rw [List.nil_append] at hparts
        have hri := consumeChunk_ri_of_not_mem sz [] (u ++ 0 :: v) k ri h0take
        have hrest : (consumeChunk sz [] (u ++ 0 :: v) k ri).2.1
            = u.drop sz ++ 0 :: v := by
          rw [consumeChunk_rest, List.drop_append_of_le_length hle]
        have hdu : 0 ∉ u.drop sz := fun hm => hu (List.mem_of_mem_drop hm)
        have hdulen : (u.drop sz).length = u.length - sz := by simp
        have hih := ih (u.drop sz) v (k + 1) ri hdu hv (by omega)
        rw [hdulen] at hih
        have hsx : seamIdx (sz :: szs) u.length = 1 + seamIdx szs (u.length - sz) := by
          rw [seamIdx_cons, if_pos hle]
        simp only [buildParts, hparts, hrest, hri, htake, List.length_singleton,
          List.singleton_append, hsx]
        refine ⟨?_, ?_, ?_⟩
        · rw [hih.1]; omega
        · have := hih.2.1
          simp only [List.length_cons]
          omega
        · have h1j : 1 + seamIdx szs (u.length - sz) = seamIdx szs (u.length - sz) + 1 := by
            omega
          rw [h1j, List.getD_cons_succ]
          exact hih.2.2
      · -- the seam falls inside this chunk
        push_neg at hle
        obtain ⟨d, hd⟩ : ∃ d, sz - u.length = d + 1 := ⟨sz - u.length - 1, by omega⟩
        have htake : (u ++ 0 :: v).take sz = u ++ 0 :: v.take d := by
          rw [List.take_append_eq_append_take, List.take_of_length_le (by omega), hd,
            List.take_succ_cons]
        have hvd : 0 ∉ v.take d := fun hm => hv (List.mem_of_mem_take hm)
        have hseam := consumeChunk_seam u sz [] (u ++ 0 :: v) (v.take d) k ri htake hu hvd
        have hrest : (consumeChunk sz [] (u ++ 0 :: v) k ri).2.1 = v.drop d := by
          rw [consumeChunk_rest, List.drop_append_eq_append_drop,
            List.drop_eq_nil_of_le (by omega), hd, List.drop_succ_cons, List.nil_append]
        have hvdrop : 0 ∉ v.drop d := fun hm => hv (List.mem_of_mem_drop hm)
        by_cases hu0 : u = []
        · rw [if_pos ⟨rfl, hu0⟩] at hseam
          have hsx : seamIdx (sz :: szs) u.length = 0 := by
            rw [seamIdx_cons, if_neg (by omega), if_pos (by simp [hu0])]
          simp only [buildParts, hsx]
          refine ⟨?_, ?_, ?_⟩
          · rw [hrest, buildParts_ri_of_not_mem szs _ _ _ hvdrop, hseam.1, Nat.add_zero]
          · rw [List.length_append]
            have := hseam.2.1
            omega
          · rw [List.getD_append _ _ _ _ hseam.2.1]
            exact hseam.2.2
        · rw [if_neg (fun hc => hu0 hc.2)] at hseam
          have hsx : seamIdx (sz :: szs) u.length = 1 := by
            have hne : u.length ≠ 0 := by
              simpa [List.length_eq_zero] using hu0
            rw [seamIdx_cons, if_neg (by omega), if_neg hne]
          simp only [buildParts, hsx]
          refine ⟨?_, ?_, ?_⟩
          · rw [hrest, buildParts_ri_of_not_mem szs _ _ _ hvdrop, hseam.1]
          · rw [List.length_append]
            have := hseam.2.1
            omega
          · rw [List.getD_append _ _ _ _ hseam.2.1]
            exact hseam.2.2

lemma seamIdx_zero_of_pos (T : List Nat) (hpos : ∀ x ∈ T, 0 < x) :
    seamIdx T 0 = 0 := by
  cases T with
  | nil => rfl
  | cons sz szs =>
      have hsz : 0 < sz := hpos sz (by simp)
      rw [seamIdx_cons, if_neg (by omega), if_pos rfl]

lemma seamIdx_replicate (m : Nat) : ∀ (ps : Nat) (T : List Nat) (q : Nat), 0 < ps →
    seamIdx (List.replicate m ps ++ T) (m * ps + q) = m + seamIdx T q := by
  induction m with
  | zero => intro ps T q _; simp
  | succ m ih =>
      intro ps T q hps
      rw [List.replicate_succ, List.cons_append, seamIdx_cons]
      have hmul : (m + 1) * ps = m * ps + ps := by ring
      rw [if_pos (by omega)]
      have harg : (m + 1) * ps + q - ps = m * ps + q := by omega
      rw [harg, ih ps T q hps]
      omega

lemma seamIdx_ceil (m : Nat) : ∀ (ps : Nat) (T : List Nat) (pos : Nat), 0 < ps →
    pos < m * ps → seamIdx (List.replicate m ps ++ T) pos = (pos + ps - 1) / ps := by
  induction m with
  | zero => intro ps T pos _ hlt; omega
  | succ m ih =>
      intro ps T pos hps hlt
      rw [List.replicate_succ, List.cons_append, seamIdx_cons]
      have hmul : (m + 1) * ps = m * ps + ps := by ring
      by_cases hle : ps ≤ pos
      · rw [if_pos hle, ih ps T (pos - ps) hps (by omega)]
        have h2 : pos + ps - 1 = (pos - ps + ps - 1) + ps := by omega
        rw [h2, Nat.add_div_right _ hps]
        omega
      · rw [if_neg hle]
        by_cases hp0 : pos = 0
        · rw [if_pos hp0, hp0]
          have h3 : (0 + ps - 1) / ps = 0 := Nat.div_eq_of_lt (by omega)
          omega
        · rw [if_neg hp0]
          have h3 : pos + ps - 1 = (pos - 1) + ps := by omega
          rw [h3, Nat.add_div_right _ hps]
          have h4 : (pos - 1) / ps = 0 := Nat.div_eq_of_lt (by omega)
          omega

lemma ceil_div_formula (m ps q : Nat) (hps : 0 < ps) (hq : q < ps) :
    (m * ps + q + ps - 1) / ps = m + (if q = 0 then 0 else 1) := by
  by_cases hq0 : q = 0
  · subst hq0
    rw [if_pos rfl]
    have h1 : m * ps + 0 + ps - 1 = ps * m + (ps - 1) := by
      have h2 : m * ps = ps * m := Nat.mul_comm _ _
      omega
    rw [h1, Nat.mul_add_div hps, Nat.div_eq_of_lt (by omega)]
  · rw [if_neg hq0]
    have h1 : m * ps + q + ps - 1 = ps * (m + 1) + (q - 1) := by
      have h2 : ps * (m + 1) = m * ps + ps := by ring
      omega
    rw [h1, Nat.mul_add_div hps, Nat.div_eq_of_lt (by omega)]

lemma target_part_sizes_sum (ps : Nat) (hps : 0 < ps) :
    (target_part_sizes ps).sum = 64 := by
  unfold target_part_sizes
  rw [NUM_BITS_PER_WORD_eq, List.sum_append, List.sum_replicate, smul_eq_mul]
  have hdm := Nat.div_add_mod 64 ps
  by_cases hr : 64 % ps > 0
  · rw [if_pos hr, List.sum_cons, List.sum_nil]
    have hc : 64 / ps * ps = ps * (64 / ps) := Nat.mul_comm _ _
    omega
  · rw [if_neg hr, List.sum_nil]
    have hc : 64 / ps * ps = ps * (64 / ps) := Nat.mul_comm _ _
    omega

lemma target_part_sizes_pos (ps : Nat) (hps : 0 < ps) :
    ∀ x ∈ target_part_sizes ps, 0 < x := by
  intro x hx
  unfold target_part_sizes at hx
  rw [List.mem_append] at hx
  rcases hx with hx | hx
  · rw [List.eq_of_mem_replicate hx]; exact hps
  · by_cases hr : NUM_BITS_PER_WORD % ps > 0
    · rw [if_pos hr, List.mem_singleton] at hx
      omega
    · rw [if_neg hr] at hx
      simp at hx

lemma seamIdx_target (ps rot : Nat) (hps : 0 < ps) (hrot : rot < 64) :
    seamIdx (target_part_sizes ps) rot = get_rotate_count rot ps := by
  show seamIdx (List.replicate (NUM_BITS_PER_WORD / ps) ps
      ++ (if NUM_BITS_PER_WORD % ps > 0 then [NUM_BITS_PER_WORD % ps] else [])) rot
    = (rot + ps - 1) / ps
  rw [NUM_BITS_PER_WORD_eq]
  have hdm := Nat.div_add_mod 64 ps
  have hmodlt : 64 % ps < ps := Nat.mod_lt _ hps
  by_cases hlt : rot < (64 / ps) * ps
  · exact seamIdx_ceil (64 / ps) ps _ rot hps hlt
  · push_neg at hlt
    have hc : 64 / ps * ps = ps * (64 / ps) := Nat.mul_comm _ _
    set q := rot - (64 / ps) * ps with hqdef
    have hq : rot = (64 / ps) * ps + q := by omega
    have hqlt : q < 64 % ps := by omega
    have hr : 64 % ps > 0 := by omega
    rw [if_pos hr, hq, seamIdx_replicate (64 / ps) ps [64 % ps] q hps]
    rw [seamIdx_cons, if_neg (by omega)]
    rw [ceil_div_formula (64 / ps) ps q hps (by omega)]
  -- both branches end with the same if-expression shape

lemma chunk_run_sum (ps x : Nat) (hps : 0 < ps) :
    (List.replicate (x / ps) ps ++ (if x % ps > 0 then [x % ps] else [])).sum = x := by
  rw [List.sum_append, List.sum_replicate, smul_eq_mul]
  have hdm := Nat.div_add_mod x ps
  have hc : x / ps * ps = ps * (x / ps) := Nat.mul_comm _ _
  by_cases hr : x % ps > 0
  · rw [if_pos hr, List.sum_cons, List.sum_nil]; omega
  · rw [if_neg hr, List.sum_nil]; omega

lemma chunk_run_pos (ps x : Nat) (hps : 0 < ps) :
    ∀ y ∈ List.replicate (x / ps) ps ++ (if x % ps > 0 then [x % ps] else []), 0 < y := by
  intro y hy
  rw [List.mem_append] at hy
  rcases hy with hy | hy
  · rw [List.eq_of_mem_replicate hy]; exact hps
  · by_cases hr : x % ps > 0
    · rw [if_pos hr, List.mem_singleton] at hy; omega
    · rw [if_neg hr] at hy; simp at hy

lemma non_normalized_sum (ps rot : Nat) (hps : 0 < ps) (hrot : rot ≤ 64) :
    (non_normalized_part_sizes ps rot).sum = 64 := by
  show ((List.replicate (rot / ps) ps ++ (if rot % ps > 0 then [rot % ps] else []))
      ++ (List.replicate ((NUM_BITS_PER_WORD - rot) / ps) ps
        ++ (if (NUM_BITS_PER_WORD - rot) % ps > 0
            then [(NUM_BITS_PER_WORD - rot) % ps] else []))).sum = 64
  rw [List.sum_append, chunk_run_sum ps rot hps,
    chunk_run_sum ps (NUM_BITS_PER_WORD - rot) hps, NUM_BITS_PER_WORD_eq]
  omega

lemma seamIdx_two_runs (ps m r : Nat) (T : List Nat) (hps : 0 < ps) (hr : r < ps)
    (hT : ∀ y ∈ T, 0 < y) :
    seamIdx ((List.replicate m ps ++ (if r > 0 then [r] else [])) ++ T) (m * ps + r)
      = m + (if r = 0 then 0 else 1) := by
  rw [List.append_assoc, seamIdx_replicate m ps _ r hps]
  by_cases hr0 : r = 0
  · subst hr0
    rw [if_pos rfl, if_neg (by omega), List.nil_append, seamIdx_zero_of_pos T hT]
  · rw [if_neg hr0, if_pos (by omega), List.singleton_append, seamIdx_cons,
      if_pos (le_refl r)]
    have hrr : r - r = 0 := by omega
    rw [hrr, seamIdx_zero_of_pos T hT]

lemma seamIdx_non_normalized (ps rot : Nat) (hps : 0 < ps) :
    seamIdx (non_normalized_part_sizes ps rot) rot = get_rotate_count rot ps := by
  have hdm := Nat.div_add_mod rot ps
  have hc : rot / ps * ps = ps * (rot / ps) := Nat.mul_comm _ _
  have hmodlt : rot % ps < ps := Nat.mod_lt _ hps
  have hpos := chunk_run_pos ps (NUM_BITS_PER_WORD - rot) hps
  have h1 := seamIdx_two_runs ps (rot / ps) (rot % ps)
    (List.replicate ((NUM_BITS_PER_WORD - rot) / ps) ps
      ++ (if (NUM_BITS_PER_WORD - rot) % ps > 0
          then [(NUM_BITS_PER_WORD - rot) % ps] else []))
    hps hmodlt hpos
  have hrotEq : rot / ps * ps + rot % ps = rot := by omega
  rw [hrotEq] at h1
  show seamIdx ((List.replicate (rot / ps) ps ++ (if rot % ps > 0 then [rot % ps] else []))
      ++ (List.replicate ((NUM_BITS_PER_WORD - rot) / ps) ps
        ++ (if (NUM_BITS_PER_WORD - rot) % ps > 0
            then [(NUM_BITS_PER_WORD - rot) % ps] else [])))
      rot = get_rotate_count rot ps
  rw [h1]
  show rot / ps + (if rot % ps = 0 then 0 else 1) = (rot + ps - 1) / ps
  have h2 := ceil_div_formula (rot / ps) ps (rot % ps) hps hmodlt
  rw [hrotEq] at h2
  exact h2.symm

lemma zero_not_mem_range' (s n : Nat) (hs : 0 < s) : 0 ∉ List.range' s n := by
  intro h
  rw [List.mem_range'_1] at h
  omega

lemma range64_decomp (rot : Nat) (hrot : rot < 64) :
    rotateRightVec (List.range NUM_BITS_PER_WORD) rot
      = List.range' (64 - rot) rot ++ 0 :: List.range' 1 (63 - rot) := by
  unfold rotateRightVec
  rw [NUM_BITS_PER_WORD_eq, List.length_range]
  have h1 : List.range 64 = List.range' 0 (64 - rot) ++ List.range' (64 - rot) rot := by
    have h2 := List.range'_append 0 (64 - rot) rot 1
    rw [show 0 + 1 * (64 - rot) = 64 - rot by omega] at h2
    rw [show rot + (64 - rot) = 64 by omega] at h2
    rw [List.range_eq_range']
    exact h2.symm
  rw [h1, List.drop_left' (by simp), List.take_left' (by simp)]
  congr 1
  obtain ⟨d, hd⟩ : ∃ d, 64 - rot = d + 1 := ⟨63 - rot, by omega⟩
  have hd2 : 63 - rot = d := by omega
  rw [hd, hd2]
  rfl

lemma count_rotateRightVec (l : List Nat) (n i : Nat) :
    (rotateRightVec l n).count i = l.count i := by
  unfold rotateRightVec
  rw [List.count_append, Nat.add_comm, ← List.count_append, List.take_append_drop]

lemma count_flatten_rotateLeft (parts : List (List Nat)) (n i : Nat) :
    ((rotateLeftVec parts n).flatten).count i = (parts.flatten).count i := by
  unfold rotateLeftVec
  rw [List.flatten_append, List.count_append, Nat.add_comm, ← List.count_append,
    ← List.flatten_append, List.take_append_drop]

lemma getD_zero_rotateLeft (parts : List (List Nat)) (n : Nat) (hn : n < parts.length) :
    (rotateLeftVec parts n).getD 0 [] = parts.getD n [] := by
  unfold rotateLeftVec
  have hlen : 0 < (parts.drop n).length := by
    rw [List.length_drop]
    omega
  rw [List.getD_append _ _ _ 0 hlen]
  rw [List.getD_eq_getElem _ _ hlen, List.getElem_drop, List.getD_eq_getElem _ _ hn]
  simp

lemma wordPartsBuild_spec (part_size rot : Nat) (normalize : Bool)
    (hps : 1 ≤ part_size) (hrot : rot < 64) :
    ((wordPartsBuild part_size rot normalize).1.flatten
        = rotateRightVec (List.range NUM_BITS_PER_WORD) rot)
    ∧ (wordPartsBuild part_size rot normalize).2 = get_rotate_count rot part_size
    ∧ get_rotate_count rot part_size < (wordPartsBuild part_size rot normalize).1.length
    ∧ ((wordPartsBuild part_size rot normalize).1.getD
        (get_rotate_count rot part_size) []).head? = some 0 := by
  have hps' : 0 < part_size := hps
  have hsum : (if normalize then target_part_sizes part_size
      else non_normalized_part_sizes part_size rot).sum = 64 := by
    cases normalize
    · simpa using non_normalized_sum part_size rot hps' (by omega)
    · simpa using target_part_sizes_sum part_size hps'
  have hseamIdx : seamIdx (if normalize then target_part_sizes part_size
      else non_normalized_part_sizes part_size rot) rot
      = get_rotate_count rot part_size := by
    cases normalize
    · simpa using seamIdx_non_normalized part_size rot hps'
    · simpa using seamIdx_target part_size rot hps' hrot
  have hbits := range64_decomp rot hrot
  have hu0 : 0 ∉ List.range' (64 - rot) rot := zero_not_mem_range' _ _ (by omega)
  have hv0 : 0 ∉ List.range' 1 (63 - rot) := zero_not_mem_range' _ _ (by omega)
  have hulen : (List.range' (64 - rot) rot).length = rot := by simp
  have hstream_len : (List.range' (64 - rot) rot ++ 0 :: List.range' 1 (63 - rot)).length
      = 64 := by
    simp
    omega
  have hseam := buildParts_seam
    (if normalize then target_part_sizes part_size
      else non_normalized_part_sizes part_size rot)
    (List.range' (64 - rot) rot) (List.range' 1 (63 - rot)) 0 0 hu0 hv0
    (by rw [hulen, hsum]; exact hrot)
  rw [hulen, hseamIdx] at hseam
  show (buildParts (if normalize then target_part_sizes part_size
      else non_normalized_part_sizes part_size rot)
      (rotateRightVec (List.range NUM_BITS_PER_WORD) rot) 0 0).1.flatten
      = rotateRightVec (List.range NUM_BITS_PER_WORD) rot
    ∧ (buildParts _ (rotateRightVec (List.range NUM_BITS_PER_WORD) rot) 0 0).2
      = get_rotate_count rot part_size
    ∧ get_rotate_count rot part_size
      < (buildParts _ (rotateRightVec (List.range NUM_BITS_PER_WORD) rot) 0 0).1.length
    ∧ ((buildParts _ (rotateRightVec (List.range NUM_BITS_PER_WORD) rot) 0 0).1.getD
        (get_rotate_count rot part_size) []).head? = some 0
  rw [hbits]
  refine ⟨?_, ?_, hseam.2.1, hseam.2.2⟩
  · rw [buildParts_flatten, hsum, List.take_of_length_le (le_of_eq hstream_len)]
  · rw [hseam.1, Nat.zero_add]

/-- C3: for every `part_size` in `1..=64`, every rotation in `0..64` and
both values of `normalize`, the parts returned by `WordParts.new` form a
partition of the bit positions `{0, …, 63}` — every bit position appears
exactly once across all parts — and the first part's first bit position is
0 (`parts[0].bits[0] == 0`). -/
theorem C3_word_parts_partition (part_size rot : Nat) (normalize : Bool)
    (hps : 1 ≤ part_size) (hps64 : part_size ≤ 64) (hrot : rot < 64) :
    (∀ i, i < 64 → ((WordParts.new part_size rot normalize).flatten).count i = 1)
    ∧ ((WordParts.new part_size rot normalize).getD 0 []).head? = some 0 := by
  obtain ⟨hfl, hri, hlen, hhead⟩ := wordPartsBuild_spec part_size rot normalize hps hrot
  constructor
  · intro i hi
    show ((rotateLeftVec (wordPartsBuild part_size rot normalize).1
        (wordPartsBuild part_size rot normalize).2).flatten).count i = 1
    rw [count_flatten_rotateLeft, hfl, count_rotateRightVec, NUM_BITS_PER_WORD_eq]
    exact List.count_eq_one_of_mem (List.nodup_range 64) (List.mem_range.mpr hi)
  · show ((rotateLeftVec (wordPartsBuild part_size rot normalize).1
        (wordPartsBuild part_size rot normalize).2).getD 0 []).head? = some 0
    rw [hri, getD_zero_rotateLeft _ _ hlen]
    exact hhead

/-- Witness for C3 at `part_size = 3`, `rot = 5`, `normalize = true`. -/
theorem C3_word_parts_partition_witness :
    ((1 ≤ 3 ∧ 3 ≤ 64 ∧ 5 < 64)
      ∧ (∀ i, i < 64 → ((WordParts.new 3 5 true).flatten).count i = 1)
      ∧ ((WordParts.new 3 5 true).getD 0 []).head? = some 0) :=
  ⟨⟨by decide, by decide, by decide⟩,
    (C3_word_parts_partition 3 5 true (by decide) (by decide) (by decide)).1,
    (C3_word_parts_partition 3 5 true (by decide) (by decide) (by decide)).2⟩

/-- C4: `get_rotate_count rotation part_size` is
`(rotation + part_size - 1) / part_size`, which is exactly
`⌈rotation / part_size⌉` (characterized by
`rotation ≤ part_size * k < rotation + part_size`), and inside
`WordParts::new` this value equals the pre-rotation index of the part that
begins with the seam bit position 0 — the index rotated to the front. -/
theorem C4_get_rotate_count (part_size rot : Nat) (normalize : Bool)
    (hps : 1 ≤ part_size) (hps64 : part_size ≤ 64) (hrot : rot < 64) :
    get_rotate_count rot part_size = (rot + part_size - 1) / part_size
    ∧ rot ≤ part_size * get_rotate_count rot part_size
    ∧ part_size * get_rotate_count rot part_size < rot + part_size
    ∧ (wordPartsBuild part_size rot normalize).2 = get_rotate_count rot part_size
    ∧ ((wordPartsBuild part_size rot normalize).1.getD
        (get_rotate_count rot part_size) []).head? = some 0 := by
  obtain ⟨hfl, hri, hlen, hhead⟩ := wordPartsBuild_spec part_size rot normalize hps hrot
  have hdm := Nat.div_add_mod (rot + part_size - 1) part_size
  have hml : (rot + part_size - 1) % part_size < part_size := Nat.mod_lt _ (by omega)
  refine ⟨rfl, ?_, ?_, hri, hhead⟩
  · show rot ≤ part_size * ((rot + part_size - 1) / part_size)
    omega
  · show part_size * ((rot + part_size - 1) / part_size) < rot + part_size
    omega

/-- Witness for C4 at `part_size = 5`, `rot = 7`, `normalize = false`. -/
theorem C4_get_rotate_count_witness :
    ((1 ≤ 5 ∧ 5 ≤ 64 ∧ 7 < 64)
      ∧ get_rotate_count 7 5 = (7 + 5 - 1) / 5
      ∧ 7 ≤ 5 * get_rotate_count 7 5
      ∧ 5 * get_rotate_count 7 5 < 7 + 5
      ∧ (wordPartsBuild 5 7 false).2 = get_rotate_count 7 5
      ∧ ((wordPartsBuild 5 7 false).1.getD (get_rotate_count 7 5) []).head? = some 0) :=
  ⟨⟨by decide, by decide, by decide⟩,
    C4_get_rotate_count 5 7 false (by decide) (by decide) (by decide)⟩

lemma finalForall_cons (keccak : List Nat → List Nat) (inputs : List (List Nat))
    (row : KRow) (L : List KRow) (off : Nat) (hoff : off < inputs.length) :
    (∀ j, j < (row :: L).length → off + j < inputs.length →
        finalRowOk keccak inputs (off + j) ((row :: L).getD j default))
      ↔ (finalRowOk keccak inputs off row
        ∧ ∀ j, j < L.length → (off + 1) + j < inputs.length →
            finalRowOk keccak inputs ((off + 1) + j) (L.getD j default)) := by
  constructor
  · intro h
    refine ⟨by simpa using h 0 (by simp) (by omega), ?_⟩
    intro j hj hjn
    have h1 := h (j + 1) (by simpa using hj) (by omega)
    rw [List.getD_cons_succ] at h1
    have harg : off + (j + 1) = off + 1 + j := by omega
    rw [harg] at h1
    exact h1
  · rintro ⟨h0, h⟩ j hj hjn
    cases j with
    | zero => simpa using h0
    | succ j =>
        rw [List.getD_cons_succ]
        have h1 := h j (by simpa using hj) (by omega)
        have harg : off + 1 + j = off + (j + 1) := by omega
        rw [harg] at h1
        exact h1

lemma finalForall_trivial (keccak : List Nat → List Nat) (inputs : List (List Nat))
    (L : List KRow) (off : Nat) (hoff : inputs.length ≤ off) :
    ∀ j, j < L.length → off + j < inputs.length →
        finalRowOk keccak inputs (off + j) (L.getD j default) := by
  intro j _ hjn
  omega

lemma outputRowsOk_iff (keccak : List Nat → List Nat) (inputs : List (List Nat)) :
    ∀ (rows : List KRow) (off : Nat),
    outputRowsOk keccak inputs off rows = true ↔
      ((∀ r ∈ rows, fits128 r.hash_lo ∧ fits128 r.hash_hi)
      ∧ ∀ j, j < (rows.filter isFinalRow).length → off + j < inputs.length →
          finalRowOk keccak inputs (off + j) ((rows.filter isFinalRow).getD j default)) := by
  intro rows
  induction rows with
  | nil =>
      intro off
      constructor
      · intro _
        exact ⟨by simp, fun j hj _ => absurd hj (by simp)⟩
      · intro _
        rfl
  | cons row rest ih =>
      intro off
      by_cases hlo : row.hash_lo.val < 2 ^ 128
      · by_cases hhi : row.hash_hi.val < 2 ^ 128
        · have hx : extract_u128 row.hash_lo = some row.hash_lo.val := by
            rw [extract_u128_eq, if_pos hlo]
          have hy : extract_u128 row.hash_hi = some row.hash_hi.val := by
            rw [extract_u128_eq, if_pos hhi]
          by_cases hfin : extract_value row.is_final ≠ 0
          · have hfil : (row :: rest).filter isFinalRow = row :: rest.filter isFinalRow := by
              simp [List.filter_cons, isFinalRow, hfin]
            by_cases hoff : off < inputs.length
            · have hcond : off < inputs.length ∧ extract_value row.is_final ≠ 0 :=
                ⟨hoff, hfin⟩
              by_cases hmatch : digestLo (keccak (inputs.getD off [])) = row.hash_lo.val
                  ∧ digestHi (keccak (inputs.getD off [])) = row.hash_hi.val
              · have hstep : outputRowsOk keccak inputs off (row :: rest)
                    = outputRowsOk keccak inputs (off + 1) rest := by
                  simp only [outputRowsOk, hx, hy]
                  rw [if_pos hcond, if_pos hmatch]
                rw [hstep, ih (off + 1), hfil]
                constructor
                · rintro ⟨hfits, hind⟩
                  refine ⟨?_, ?_⟩
                  · intro r hr
                    rcases List.mem_cons.mp hr with h | h
                    · rw [h]; exact ⟨hlo, hhi⟩
                    · exact hfits r h
                  · rw [finalForall_cons keccak inputs row _ off hoff]
                    exact ⟨⟨hmatch.1.symm, hmatch.2.symm⟩, hind⟩
                · rintro ⟨hfits, hind⟩
                  rw [finalForall_cons keccak inputs row _ off hoff] at hind
                  exact ⟨fun r hr => hfits r (by simp [hr]), hind.2⟩
              · have hstep : outputRowsOk keccak inputs off (row :: rest) = false := by
                  simp only [outputRowsOk, hx, hy]
                  rw [if_pos hcond, if_neg hmatch]
                rw [hstep]
                constructor
                · intro h
                  exact absurd h (by simp)
                · rintro ⟨hfits, hind⟩
                  rw [hfil] at hind
                  have h0 := hind 0 (by simp) (by omega)
                  simp only [List.getD_cons_zero, Nat.add_zero] at h0
                  exact absurd ⟨h0.1.symm, h0.2.symm⟩ hmatch
            · have hcond : ¬ (off < inputs.length ∧ extract_value row.is_final ≠ 0) :=
                fun hc => hoff hc.1
              have hstep : outputRowsOk keccak inputs off (row :: rest)
                  = outputRowsOk keccak inputs off rest := by
                simp only [outputRowsOk, hx, hy]
                rw [if_neg hcond]
              rw [hstep, ih off, hfil]
              push_neg at hoff
              constructor
              · rintro ⟨hfits, _⟩
                refine ⟨?_, finalForall_trivial keccak inputs _ off hoff⟩
                intro r hr
                rcases List.mem_cons.mp hr with h | h
                · rw [h]; exact ⟨hlo, hhi⟩
                · exact hfits r h
              · rintro ⟨hfits, _⟩
                exact ⟨fun r hr => hfits r (by simp [hr]),
                  finalForall_trivial keccak inputs _ off hoff⟩
          · have hcond : ¬ (off < inputs.length ∧ extract_value row.is_final ≠ 0) :=
              fun hc => hfin hc.2
            have hfin0 : extract_value row.is_final = 0 := not_not.mp hfin
            have hfil : (row :: rest).filter isFinalRow = rest.filter isFinalRow := by
              simp [List.filter_cons, isFinalRow, hfin0]
            have hstep : outputRowsOk keccak inputs off (row :: rest)
                = outputRowsOk keccak inputs off rest := by
              simp only [outputRowsOk, hx, hy]
              rw [if_neg hcond]
            rw [hstep, ih off, hfil]
            constructor
            · rintro ⟨hfits, hind⟩
              refine ⟨?_, hind⟩
              intro r hr
              rcases List.mem_cons.mp hr with h | h
              · rw [h]; exact ⟨hlo, hhi⟩
              · exact hfits r h
            · rintro ⟨hfits, hind⟩
              exact ⟨fun r hr => hfits r (by simp [hr]), hind⟩
        · have hy : extract_u128 row.hash_hi = none := by
            rw [extract_u128_eq, if_neg hhi]
          have hx : extract_u128 row.hash_lo = some row.hash_lo.val := by
            rw [extract_u128_eq, if_pos hlo]
          have hstep : outputRowsOk keccak inputs off (row :: rest) = false := by
            simp only [outputRowsOk, hx, hy]
          rw [hstep]
          constructor
          · intro h
            exact absurd h (by simp)
          · rintro ⟨hfits, _⟩
            exact absurd (hfits row (by simp)).2 hhi
      · have hx : extract_u128 row.hash_lo = none := by
          rw [extract_u128_eq, if_neg hlo]
        have hstep : outputRowsOk keccak inputs off (row :: rest) = false := by
          simp only [outputRowsOk, hx]
        rw [hstep]
        constructor
        · intro h
          exact absurd h (by simp)
        · rintro ⟨hfits, _⟩
          exact absurd (hfits row (by simp)).1 hlo

/-- C7 (amended): `verify_output_witnesses` completes without aborting iff
every sampled row's `hash_lo` and `hash_hi` cells fit in 128 bits (the
`extract_u128` precondition, which the claim omitted) and every sampled
row whose finality flag is nonzero while an input remains unconsumed
reports exactly the low/high 128-bit big-endian halves of the reference
Keccak-256 digest of that input, the check advancing to the next input at
each such final row. -/
theorem C7_verify_output_iff (keccak : List Nat → List Nat)
    (inputs : List (List Nat)) (rows_per_round : Nat) (rows : List KRow) :
    verify_output_witnesses keccak inputs rows_per_round rows = true ↔
      ((∀ r ∈ sampledRows rows_per_round rows, fits128 r.hash_lo ∧ fits128 r.hash_hi)
      ∧ ∀ j, j < ((sampledRows rows_per_round rows).filter isFinalRow).length →
          j < inputs.length →
          finalRowOk keccak inputs j
            (((sampledRows rows_per_round rows).filter isFinalRow).getD j default)) := by
  unfold verify_output_witnesses
  rw [outputRowsOk_iff]
  simp only [Nat.zero_add]

/-- C7 counterexample: with no inputs and one sampled row whose `hash_lo`
cell is `2 ^ 128`, the property as the claim states it holds vacuously
(no input remains to bind), yet `verify_output_witnesses` aborts on the
`extract_u128` panic — so the claimed equivalence is false at this input. -/
theorem C7_counterexample :
    outputSpecClaim (fun _ => List.replicate 32 0) [] 1
      (List.replicate 25 zeroRow ++ [badHashRow])
    ∧ verify_output_witnesses (fun _ => List.replicate 32 0) [] 1
      (List.replicate 25 zeroRow ++ [badHashRow]) = false := by
  constructor
  · intro j _ hj
    exact absurd hj (by simp)
  · decide

lemma checkRow_eq (inputs : List (List Nat)) (off round_idx row_idx : Nat)
    (st : Bool × Nat) (r : KRow) :
    checkRow inputs off round_idx row_idx st r
      = if entryOkB inputs ⟨round_idx, row_idx, off, st.2, r⟩ = true
        then some (stepRow inputs off round_idx row_idx st r) else none := by
  cases hwv : extract_u128 r.word_value with
  | none => simp [checkRow, entryOkB, hwv]
  | some wv =>
      cases hbl : extract_u128 r.bytes_left with
      | none => simp [checkRow, entryOkB, hwv, hbl]
      | some bl =>
          by_cases hoff : inputs.length ≤ off
          · by_cases hz : wv = 0 ∧ bl = 0
            · simp [checkRow, entryOkB, stepRow, hwv, hbl, hoff, hz]
            · simp [checkRow, entryOkB, hwv, hbl, hoff, hz]
          · by_cases hrow : row_idx = 0
            · have hE : entryOkB inputs ⟨round_idx, row_idx, off, st.2, r⟩
                  = decide (bl = (inputs.getD off []).length - st.2
                    ∧ wv = expectedWordVal (inputs.getD off []) st.2 round_idx) := by
                simp only [entryOkB, hwv, hbl]
                rw [if_neg hoff, if_pos hrow]
              have hS : stepRow inputs off round_idx row_idx st r
                  = (if round_idx = NUM_ROUNDS ∧ row_idx = 0
                        ∧ extract_value r.is_final ≠ 0 then true else st.1,
                    endCursor (inputs.getD off []).length st.2 round_idx) := by
                simp only [stepRow]
                rw [if_neg hoff, if_pos hrow]
              by_cases hass : bl = (inputs.getD off []).length - st.2
                  ∧ wv = expectedWordVal (inputs.getD off []) st.2 round_idx
              · have hL : checkRow inputs off round_idx row_idx st r
                    = some (stepRow inputs off round_idx row_idx st r) := by
                  simp only [checkRow, hwv, hbl]
                  rw [if_neg hoff, if_pos hrow, if_pos hass, hS]
                rw [hL, hE, decide_eq_true hass, if_pos rfl]
              · have hL : checkRow inputs off round_idx row_idx st r = none := by
                  simp only [checkRow, hwv, hbl]
                  rw [if_neg hoff, if_pos hrow, if_neg hass]
                rw [hL, hE, decide_eq_false hass, if_neg (by simp)]
            · have hE : entryOkB inputs ⟨round_idx, row_idx, off, st.2, r⟩ = true := by
                simp only [entryOkB, hwv, hbl]
                rw [if_neg hoff, if_neg hrow]
              have hS : stepRow inputs off round_idx row_idx st r
                  = (if round_idx = NUM_ROUNDS ∧ row_idx = 0
                        ∧ extract_value r.is_final ≠ 0 then true else st.1, st.2) := by
                simp only [stepRow]
                rw [if_neg hoff, if_neg hrow]
              have hL : checkRow inputs off round_idx row_idx st r
                  = some (stepRow inputs off round_idx row_idx st r) := by
                simp only [checkRow, hwv, hbl]
                rw [if_neg hoff, if_neg hrow, hS]
              rw [hL, hE, if_pos rfl]

lemma checkRowsIn_eq (inputs : List (List Nat)) (off round_idx : Nat) :
    ∀ (rs : List KRow) (row_idx : Nat) (st : Bool × Nat),
    checkRowsIn inputs off round_idx row_idx st rs
      = if ((traceRowsIn inputs off round_idx row_idx st rs).1.all (entryOkB inputs)) = true
        then some (traceRowsIn inputs off round_idx row_idx st rs).2 else none := by
  intro rs
  induction rs with
  | nil => intro row_idx st; simp [checkRowsIn, traceRowsIn]
  | cons r rs ih =>
      intro row_idx st
      have htr1 : (traceRowsIn inputs off round_idx row_idx st (r :: rs)).1
          = (⟨round_idx, row_idx, off, st.2, r⟩ : TEntry)
            :: (traceRowsIn inputs off round_idx (row_idx + 1)
                (stepRow inputs off round_idx row_idx st r) rs).1 := rfl
      have htr2 : (traceRowsIn inputs off round_idx row_idx st (r :: rs)).2
          = (traceRowsIn inputs off round_idx (row_idx + 1)
              (stepRow inputs off round_idx row_idx st r) rs).2 := rfl
      have hstep : checkRowsIn inputs off round_idx row_idx st (r :: rs)
          = (checkRow inputs off round_idx row_idx st r).bind
              (fun st' => checkRowsIn inputs off round_idx (row_idx + 1) st' rs) := rfl
      rw [hstep, htr1, htr2, checkRow_eq, List.all_cons]
      by_cases hok : entryOkB inputs ⟨round_idx, row_idx, off, st.2, r⟩ = true
      · rw [if_pos hok, Option.some_bind, hok, Bool.true_and]
        exact ih (row_idx + 1) (stepRow inputs off round_idx row_idx st r)
      · rw [if_neg hok, Option.none_bind]
        rw [Bool.not_eq_true] at hok
        rw [hok, Bool.false_and, if_neg (by simp)]

lemma checkRounds_eq (inputs : List (List Nat)) (off : Nat) :
    ∀ (rnds : List (List KRow)) (round_idx : Nat) (st : Bool × Nat),
    checkRounds inputs off round_idx st rnds
      = if ((traceRounds inputs off round_idx st rnds).1.all (entryOkB inputs)) = true
        then some (traceRounds inputs off round_idx st rnds).2 else none := by
  intro rnds
  induction rnds with
  | nil => intro round_idx st; simp [checkRounds, traceRounds]
  | cons rnd rnds ih =>
      intro round_idx st
      have htr1 : (traceRounds inputs off round_idx st (rnd :: rnds)).1
          = (traceRowsIn inputs off round_idx 0 st rnd).1
            ++ (traceRounds inputs off (round_idx + 1)
                (traceRowsIn inputs off round_idx 0 st rnd).2 rnds).1 := rfl
      have htr2 : (traceRounds inputs off round_idx st (rnd :: rnds)).2
          = (traceRounds inputs off (round_idx + 1)
              (traceRowsIn inputs off round_idx 0 st rnd).2 rnds).2 := rfl
      have hstep : checkRounds inputs off round_idx st (rnd :: rnds)
          = (checkRowsIn inputs off round_idx 0 st rnd).bind
              (fun st' => checkRounds inputs off (round_idx + 1) st' rnds) := rfl
      rw [hstep, htr1, htr2, checkRowsIn_eq, List.all_append]
      by_cases hok : ((traceRowsIn inputs off round_idx 0 st rnd).1.all (entryOkB inputs))
          = true
      · rw [if_pos hok, Option.some_bind, hok, Bool.true_and]
        exact ih (round_idx + 1) (traceRowsIn inputs off round_idx 0 st rnd).2
      · rw [if_neg hok, Option.none_bind]
        rw [Bool.not_eq_true] at hok
        rw [hok, Bool.false_and, if_neg (by simp)]

lemma checkBlocks_eq (inputs : List (List Nat)) :
    ∀ (bs : List (List (List KRow))) (off cursor : Nat),
    checkBlocks inputs off cursor bs
      = (traceBlocks inputs off cursor bs).all (entryOkB inputs) := by
  intro bs
  induction bs with
  | nil => intro off cursor; rfl
  | cons blk bs ih =>
      intro off cursor
      have htr : traceBlocks inputs off cursor (blk :: bs)
          = (traceRounds inputs off 0 (false, cursor) blk).1
            ++ (if (traceRounds inputs off 0 (false, cursor) blk).2.1
                then traceBlocks inputs (off + 1) 0 bs
                else traceBlocks inputs off
                  (traceRounds inputs off 0 (false, cursor) blk).2.2 bs) := rfl
      have hstep : checkBlocks inputs off cursor (blk :: bs)
          = (checkRounds inputs off 0 (false, cursor) blk).elim false
              (fun st' =>
                if st'.1 then checkBlocks inputs (off + 1) 0 bs
                else checkBlocks inputs off st'.2 bs) := rfl
      rw [hstep, htr, checkRounds_eq, List.all_append]
      by_cases hok : ((traceRounds inputs off 0 (false, cursor) blk).1.all (entryOkB inputs))
          = true
      · rw [if_pos hok, Option.elim_some, hok, Bool.true_and]
        by_cases hab : (traceRounds inputs off 0 (false, cursor) blk).2.1 = true
        · rw [if_pos hab, if_pos hab]
          exact ih (off + 1) 0
        · rw [if_neg hab, if_neg hab]
          exact ih off (traceRounds inputs off 0 (false, cursor) blk).2.2
      · rw [if_neg hok, Option.elim_none]
        rw [Bool.not_eq_true] at hok
        rw [hok, Bool.false_and]

lemma entryOkB_iff (inputs : List (List Nat)) (e : TEntry) :
    entryOkB inputs e = true ↔ entryOk inputs e := by
  have hwv := extract_u128_eq e.row.word_value
  have hbl := extract_u128_eq e.row.bytes_left
  by_cases hwvf : e.row.word_value.val < 2 ^ 128
  · rw [if_pos hwvf] at hwv
    by_cases hblf : e.row.bytes_left.val < 2 ^ 128
    · rw [if_pos hblf] at hbl
      by_cases hoff : inputs.length ≤ e.off
      · have hB : entryOkB inputs e
            = decide (e.row.word_value.val = 0 ∧ e.row.bytes_left.val = 0) := by
          simp [entryOkB, hwv, hbl, hoff]
        rw [hB, decide_eq_true_eq]
        constructor
        · intro h
          exact ⟨hwvf, hblf, fun _ => h, fun hlt => absurd hlt (by omega)⟩
        · rintro ⟨_, _, h, _⟩
          exact h hoff
      · by_cases hrow : e.row_idx = 0
        · have hB : entryOkB inputs e
              = decide (e.row.bytes_left.val = (inputs.getD e.off []).length - e.cursor
                ∧ e.row.word_value.val
                  = expectedWordVal (inputs.getD e.off []) e.cursor e.round_idx) := by
            simp [entryOkB, hwv, hbl, hoff, hrow]
          rw [hB, decide_eq_true_eq]
          constructor
          · intro h
            exact ⟨hwvf, hblf, fun hle => absurd hle hoff, fun _ _ => h⟩
          · rintro ⟨_, _, _, h⟩
            exact h (by omega) hrow
        · have hB : entryOkB inputs e = true := by
            simp [entryOkB, hwv, hbl, hoff, hrow]
          rw [hB]
          constructor
          · intro _
            exact ⟨hwvf, hblf, fun hle => absurd hle hoff, fun _ hr => absurd hr hrow⟩
          · intro _
            rfl
    · rw [if_neg hblf] at hbl
      have hB : entryOkB inputs e = false := by
        cases hwv2 : extract_u128 e.row.word_value with
        | none => simp [entryOkB, hwv2]
        | some wv => simp [entryOkB, hwv2, hbl]
      rw [hB]
      constructor
      · intro h
        exact absurd h (by simp)
      · rintro ⟨_, h, _⟩
        exact absurd h hblf
  · rw [if_neg hwvf] at hwv
    have hB : entryOkB inputs e = false := by
      simp [entryOkB, hwv]
    rw [hB]
    constructor
    · intro h
      exact absurd h (by simp)
    · rintro ⟨h, _⟩
      exact absurd h hwvf

/-- C8 (amended): `verify_input_witnesses` completes without aborting iff
every walked row (the dummy round excluded) satisfies: its `word_value`
and `bytes_left` cells fit in 128 bits (the `extract_u128` precondition);
after all inputs are exhausted the row reports `word_value = 0` and
`bytes_left = 0`; and, for row-index-0 rows of a live input, `bytes_left`
equals the input length minus the current byte cursor and `word_value`
equals the next up-to-8 input bytes at the cursor packed little-endian and
zero-padded to 8 bytes — an empty slice, hence 0, at rounds
`≥ NUM_WORDS_TO_ABSORB` (a case the original claim left unconstrained).
Any mismatch makes the result false (the assertion aborts). -/
theorem C8_verify_input_iff (inputs : List (List Nat)) (rows_per_round : Nat)
    (rows : List KRow) :
    verify_input_witnesses inputs rows_per_round rows = true ↔
      ∀ e ∈ inputTrace inputs rows_per_round rows, entryOk inputs e := by
  unfold verify_input_witnesses inputTrace
  rw [checkBlocks_eq, List.all_eq_true]
  constructor
  · intro h e he
    exact (entryOkB_iff inputs e).mp (h e he)
  · intro h e he
    exact (entryOkB_iff inputs e).mpr (h e he)

/-- C8 counterexample: one empty input, 18 walked rounds at one row per
round, and a stray `word_value = 5` at round 17 (the first round past
`NUM_WORDS_TO_ABSORB`).  Every walked row satisfies the property exactly
as the claim states it — the claim says nothing about `word_value` at
rounds `≥ NUM_WORDS_TO_ABSORB` — yet `verify_input_witnesses` aborts
there (the code asserts the zero-padded empty slice, i.e. 0).  So the
claimed equivalence is false at this input. -/
theorem C8_counterexample :
    (∀ e ∈ inputTrace [[]] 1 (List.replicate 18 zeroRow ++ [strayWordRow]),
      entryOkClaim [[]] e)
    ∧ verify_input_witnesses [[]] 1 (List.replicate 18 zeroRow ++ [strayWordRow])
      = false := by
  constructor
  · decide
  · decide

set_option maxRecDepth 8000 in
/-- C1 is refuted by the code: for a 137-byte input (more than the
136-byte rate, so a byte remains when round `NUM_WORDS_TO_ABSORB` is
reached) the binding walk calls `constrain_instance` on the row-index-0
`word_value` cell of round 17 of the first block — outside the first
`NUM_WORDS_TO_ABSORB = 17` rounds — because the constrain call is not
gated on `round_idx < NUM_WORDS_TO_ABSORB`.  The claim asserts no such
cell is ever constrained.  This theorem evaluates the model at that input:
the call list is exactly one call per round 0..17 of block 0, including
the offending `((0, 17, 0), 17)`. -/
theorem C1_code_bug_eval :
    constraint_public_inputs [List.replicate 137 1] 1 (List.replicate 19 zeroRow)
      = (List.range 18).map (fun r => ((0, r, 0), r))
    ∧ ((0, 17, 0), 17) ∈ constraint_public_inputs [List.replicate 137 1] 1
        (List.replicate 19 zeroRow)
    ∧ NUM_WORDS_TO_ABSORB = 17 := by
  refine ⟨by decide, by decide, rfl⟩
